import Mathlib

/-!
Verification development for the Wurm Online Advanced Shard Analyzer.

The definitions below are a shallow embedding of the solver subsystem of
`src/app.js` (the v5 variant, the primary file of the repository):
direction vectors (`DIR_MAP`), the strength-word table
(`strengthToDistance`), candidate geometry (`wedgeCandidates`,
`matchesDiagonal`), quality banding (`bandForAdj`, `qlColorForNumber`),
the log-block parser control flow (`parseLogBlock`, `addEntry`), and the
constraint solver (`bestMatchingVein`, `createVeinInstance`,
`lockVeinAt`, `incorporateCandidates`, `rebuildVeinsFromEntries`).
Where a claim cites the ring-geometry variant of `src/unnamed/part_001`,
its `octantMatch` / `ringCandidates` / `strengthToDistance` are embedded
as well (the latter as `strengthToDistanceV3`).

Conventions of the embedding:
* JavaScript `Set` objects keyed by the string `"x,y"` (`coordKey` /
  `parseCoordKey`, an injective encoding of the integer pair) become
  `Finset (ℤ × ℤ)`; `setIntersect` becomes `Finset.inter`.
* The solver's vein array, mutated in place in JS, becomes an explicit
  `List Vein` threaded through each function, with in-place mutation of
  the i-th element rendered as `listModify`.
* The retained global `state.nextVeinId` counter (incremented by
  `createVeinInstance`, never reset by `rebuildVeinsFromEntries`)
  becomes an explicit `ℕ` threaded in and out of every solver function.
* The string group key `` `${ore}||${qlDisplay}||${qlColor}` `` of
  `rebuildVeinsFromEntries` is rendered as the triple
  `(ore, qlDisplay, qlColor)`: the key components produced by the parser
  contain only letters, spaces, digits, `-` and `#`, never the `||`
  delimiter, so building and re-splitting the string is the identity on
  the triple.
-/

/-- Tile coordinate. `src/app.js` keys candidate sets by the string
`"x,y"` via `coordKey`, decoded by `parseCoordKey`; that encoding is a
bijection with the integer pair, which the embedding uses directly. -/
abbrev Coord := ℤ × ℤ

/-- Direction vector `{dx, dy}` as produced by `parseDirectionPhrase`
in `src/app.js` (the `DIR_MAP` entries, and compound `A of B` phrases
whose summed components are clamped to `[-1, 1]`). -/
structure Dir where
  dx : ℤ
  dy : ℤ
deriving DecidableEq

/-- The eight octant vectors appearing as values of `DIR_MAP` in
`src/app.js` (north, south, east, west and the four diagonals). -/
def octants : List Dir :=
  [⟨0, 1⟩, ⟨0, -1⟩, ⟨1, 0⟩, ⟨-1, 0⟩, ⟨1, 1⟩, ⟨-1, 1⟩, ⟨1, -1⟩, ⟨-1, -1⟩]

/-- Integer sign, the behaviour of JavaScript `Math.sign` on integers
(used by `octantMatch` in `src/unnamed/part_001`). -/
def isgn (x : ℤ) : ℤ := if x < 0 then -1 else if x = 0 then 0 else 1

/-- `matchesDiagonal` from `src/app.js` (lines 200-206): a relative
offset `(dx, dy)` matches a diagonal direction vector iff both
components have the direction's strict signs. -/
def matchesDiagonal (dx dy : ℤ) (dir : Dir) : Bool :=
  if dir.dx = 1 ∧ dir.dy = 1 then decide (0 < dx ∧ 0 < dy)
  else if dir.dx = -1 ∧ dir.dy = 1 then decide (dx < 0 ∧ 0 < dy)
  else if dir.dx = 1 ∧ dir.dy = -1 then decide (0 < dx ∧ dy < 0)
  else if dir.dx = -1 ∧ dir.dy = -1 then decide (dx < 0 ∧ dy < 0)
  else false

/-- `wedgeCandidates` from `src/app.js` (lines 211-250).  Filled
candidate regions: for a cardinal direction, the rectangle of forward
distance `1..d` and lateral spread `-d..d`; for a diagonal direction,
the filled triangle of the octant cut by the Manhattan constraint
`|dx| + |dy| ≤ d` (the source's `Math.abs` sum rendered with
`Int.natAbs`).  Returns the empty set when `d < 1` (the source's
`!d || d < 1` guard) or when the direction matches no branch. -/
def wedgeCandidates (source : Coord) (d : ℤ) (dir : Dir) : Finset Coord :=
  if d < 1 then ∅
  else if (dir.dx = 1 ∨ dir.dx = -1) ∧ dir.dy = 0 then
    (Finset.Icc 1 d ×ˢ Finset.Icc (-d) d).image
      (fun q => (source.1 + q.1 * dir.dx, source.2 + q.2))
  else if (dir.dy = 1 ∨ dir.dy = -1) ∧ dir.dx = 0 then
    (Finset.Icc 1 d ×ˢ Finset.Icc (-d) d).image
      (fun q => (source.1 + q.2, source.2 + q.1 * dir.dy))
  else
    ((Finset.Icc (-d) d ×ˢ Finset.Icc (-d) d).filter
      (fun q => ¬(q.1 = 0 ∧ q.2 = 0) ∧ matchesDiagonal q.1 q.2 dir = true ∧
        (q.1.natAbs : ℤ) + (q.2.natAbs : ℤ) ≤ d)).image
      (fun q => (source.1 + q.1, source.2 + q.2))

/-- `octantMatch` from `src/unnamed/part_001` (lines 185-197): an offset
matches a direction vector iff on each axis the offset's `Math.sign`
equals the direction component, a zero component forcing a zero
offset. -/
def octantMatch (dx dy : ℤ) (dir : Dir) : Bool :=
  if dir.dx = 0 ∧ isgn dx ≠ 0 then false
  else if dir.dx ≠ 0 ∧ isgn dx ≠ dir.dx then false
  else if dir.dy = 0 ∧ isgn dy ≠ 0 then false
  else if dir.dy ≠ 0 ∧ isgn dy ≠ dir.dy then false
  else true

/-- `ringCandidates` from `src/unnamed/part_001` (lines 165-182): the
ring of tiles at Chebyshev distance exactly `d`, filtered to the octant
by `octantMatch`; empty when `d < 1`. -/
def ringCandidates (source : Coord) (d : ℤ) (dir : Dir) : Finset Coord :=
  if d < 1 then ∅
  else
    ((Finset.Icc (-d) d ×ˢ Finset.Icc (-d) d).filter
      (fun q => max (q.1.natAbs : ℤ) (q.2.natAbs : ℤ) = d ∧
        octantMatch q.1 q.2 dir = true)).image
      (fun q => (source.1 + q.1, source.2 + q.2))

/-- The recognized strength vocabulary: exactly the five words scanned
for by `extractStrengthWord` in `src/app.js` (lines 253-258).
`extractStrengthWord` returns one of these words or `null`; the
embedding therefore treats the strength word as `Option SWord`. -/
inductive SWord where
  | slight
  | faint
  | minuscule
  | vague
  | indistinct
deriving DecidableEq

/-- `strengthToDistance` from `src/app.js` (lines 180-189).  The source
tests lowercase substring containment in the order slight, faint,
minuscule, vague, indistinct with default 6; on the exact vocabulary
produced by `extractStrengthWord` (no word of which contains another)
this is the table below, with `none` (no strength word found) mapping
to the default 6. -/
def strengthToDistance : Option SWord → ℤ
  | none => 6
  | some .slight => 6
  | some .faint => 8
  | some .minuscule => 8
  | some .vague => 10
  | some .indistinct => 12

/-- `strengthToDistance` from `src/unnamed/part_001` (lines 152-162),
the v3 ring-geometry variant: checks indistinct, vague, minuscule,
faint, slight in that order with default 2, and returns 0 for a missing
strength word. -/
def strengthToDistanceV3 : Option SWord → ℤ
  | none => 0
  | some .indistinct => 5
  | some .vague => 4
  | some .minuscule => 3
  | some .faint => 3
  | some .slight => 2

/-- Quality adjectives recognized by `parseOreAndAdjFromDescriptor` in
`src/app.js` (checked in the order utmost, very good, good, normal,
poor, the longer phrases first so that `very good` is not captured by
`good`). -/
inductive Adj where
  | poor
  | normal
  | good
  | veryGood
  | utmost
deriving DecidableEq

/-- One entry of the `QUALITY_BANDS` table of `src/app.js` (lines
85-91). -/
structure Band where
  key : String
  label : String
  color : String
deriving DecidableEq

/-- The `QUALITY_BANDS` rows of `src/app.js`. -/
def bandPoor : Band := ⟨"poor", "20-29", "#9aa0a6"⟩

/-- The `normal` row of `QUALITY_BANDS` in `src/app.js`. -/
def bandNormal : Band := ⟨"normal", "40-59", "#3ddc84"⟩

/-- The `good` row of `QUALITY_BANDS` in `src/app.js`. -/
def bandGood : Band := ⟨"good", "60-79", "#4ea1ff"⟩

/-- The `very_good` row of `QUALITY_BANDS` in `src/app.js`. -/
def bandVeryGood : Band := ⟨"very_good", "80-94", "#b36bff"⟩

/-- The `utmost` row of `QUALITY_BANDS` in `src/app.js`. -/
def bandUtmost : Band := ⟨"utmost", "95-99", "#ffb020"⟩

/-- `bandForAdj` from `src/app.js` (lines 121-130): maps a recognized
quality adjective to its `QUALITY_BANDS` row, `none` for a missing
adjective.  The source's substring checks run utmost, very good, good,
normal, poor on the adjective string; on the exact `Adj` vocabulary
this is the table below. -/
def bandForAdj : Option Adj → Option Band
  | none => none
  | some .utmost => some bandUtmost
  | some .veryGood => some bandVeryGood
  | some .good => some bandGood
  | some .normal => some bandNormal
  | some .poor => some bandPoor

/-- `qlColorForNumber` from `src/app.js` (lines 112-119); the
`Number.isFinite` guard always holds for an integer quality. -/
def qlColorForNumber (n : ℤ) : String :=
  if 95 ≤ n then "#ffb020"
  else if 80 ≤ n then "#b36bff"
  else if 60 ≤ n then "#4ea1ff"
  else if 40 ≤ n then "#3ddc84"
  else "#9aa0a6"

/-- One directional-trace observation as pushed by `parseLogBlock` in
`src/app.js` (lines 350-355): ore name (already normalized, `"Unknown"`
sentinel allowed), optional quality adjective, optional strength word,
resolved direction vector. -/
structure Trace where
  ore : String
  adj : Option Adj
  strengthWord : Option SWord
  dir : Dir
deriving DecidableEq

/-- The structured session returned by `parseLogBlock` in `src/app.js`:
optional mining-context ore, optional mining-context max quality, and
the list of directional traces in log order. -/
structure Parsed where
  mineOre : Option String
  mineMaxQl : Option ℤ
  traces : List Trace
deriving DecidableEq

/-- One entry of `state.entries` in `src/app.js`: the absolute reference
position (already resolved from step deltas by `addEntry`) plus the
parsed session.  The stored `dx`, `dy` and `raw` fields are never read
by the solver and are omitted. -/
structure Entry where
  x : ℤ
  y : ℤ
  parsed : Parsed
deriving DecidableEq

/-- Line-level recognizer oracle for `parseLogBlock` in `src/app.js`
(lines 295-361).  The parser's behaviour on a line is fully determined
by the outcomes of its fixed regular expressions and helper functions;
each field embeds one of them: `startTrig` is `startRegex.test`,
`endTrig` is `endRegex.test`, `mineMatch` is the `mineRegex` capture,
`oreNorm` is `oreNormalize` (returning `none` for bulk filler material
such as shards), `maxQlMatch` is the `maxQlRegex` capture parsed by
`parseIntSafe`, `traceMatch` is the `traceRegex` descriptor and
direction-phrase captures, `strengthOf` is `extractStrengthWord`,
`parseDir` is `parseDirectionPhrase` and `parseOreAdj` is
`parseOreAndAdjFromDescriptor`.  The embedding is parametric in the
line type `α` and these outcomes; the parser's control flow is
translated exactly. -/
structure LogOracle (α : Type) where
  startTrig : α → Bool
  endTrig : α → Bool
  mineMatch : α → Option String
  oreNorm : String → Option String
  maxQlMatch : α → Option ℤ
  traceMatch : α → Option (String × String)
  strengthOf : α → Option SWord
  parseDir : String → Option Dir
  parseOreAdj : String → Option (String × Option Adj)

/-- The post-start phase of `parseLogBlock` in `src/app.js`: for each
line, stop at the end trigger, else try the mining recognizer (keeping
the previous `mineOre` when `oreNormalize` rejects the capture), else
the max-quality recognizer, else the trace recognizer (dropping the
line when the direction phrase or the descriptor fails to parse, and
substituting `"Unknown"` for an empty ore as the source's
`parsed.ore || "Unknown"` does); every unrecognized line is skipped. -/
def parseAfter {α : Type} (o : LogOracle α) :
    List α → Option String → Option ℤ → List Trace → Parsed
  | [], mo, mq, ts => ⟨mo, mq, ts⟩
  | l :: ls, mo, mq, ts =>
    if o.endTrig l then ⟨mo, mq, ts⟩
    else
      match o.mineMatch l with
      | some cap =>
          parseAfter o ls
            (match o.oreNorm cap with
             | some ore => some ore
             | none => mo) mq ts
      | none =>
        match o.maxQlMatch l with
        | some q => parseAfter o ls mo (some q) ts
        | none =>
          match o.traceMatch l with
          | some dp =>
            match o.parseDir dp.2 with
            | none => parseAfter o ls mo mq ts
            | some dir =>
              match o.parseOreAdj dp.1 with
              | none => parseAfter o ls mo mq ts
              | some oa =>
                  parseAfter o ls mo mq
                    (ts ++ [⟨if oa.1 = "" then "Unknown" else oa.1,
                             oa.2, o.strengthOf l, dir⟩])
          | none => parseAfter o ls mo mq ts

/-- The pre-start phase of `parseLogBlock` in `src/app.js`: lines are
ignored until one passes `startRegex.test`; that line itself then flows
into the started phase (the source sets `started = true` and falls
through), and if no line ever matches, the whole block fails. -/
def parseStart {α : Type} (o : LogOracle α) : List α → Option Parsed
  | [] => none
  | l :: ls =>
    if o.startTrig l then some (parseAfter o (l :: ls) none none [])
    else parseStart o ls

/-- `parseLogBlock` from `src/app.js` (lines 295-361), over the list of
trimmed non-blank lines of the pasted block.  Returns `none` (the
source's `null`, the ParseFailure) exactly when no line matches the
session-start trigger. -/
def parseLogBlock {α : Type} (o : LogOracle α) (lines : List α) : Option Parsed :=
  parseStart o lines

/-- `currentPosition` from `src/app.js` (lines 697-701): the last
entry's position, or the origin for an empty entry list. -/
def currentPosition (entries : List Entry) : Coord :=
  match entries.getLast? with
  | some e => (e.x, e.y)
  | none => (0, 0)

/-- `addEntry` from `src/app.js` (lines 703-725): an empty paste is
rejected (modelled as an empty line list), a paste with no usable
session (`parseLogBlock` returning `null`) is rejected, and otherwise
one entry is appended at the delta-resolved absolute position.  In the
two rejection branches the entry list is returned unchanged — the
source alerts and returns before `state.entries.push`. -/
def addEntry {α : Type} (o : LogOracle α) (entries : List Entry)
    (dx dy : ℤ) (lines : List α) : List Entry :=
  match lines with
  | [] => entries
  | _ :: _ =>
    match parseLogBlock o lines with
    | none => entries
    | some p =>
        let cur := currentPosition entries
        entries ++ [⟨cur.1 + dx, cur.2 + dy, p⟩]

/-- One vein instance of the solver in `src/app.js` (shape documented
at `createVeinInstance`, lines 395-405). -/
structure Vein where
  id : ℕ
  ore : String
  qlDisplay : String
  qlColor : String
  feasible : Finset Coord
  locked : Bool
  lockedCoord : Option Coord
deriving DecidableEq

/-- A copy of a vein with the id zeroed out, for comparing solver
outputs up to id assignment. -/
def stripId (v : Vein) : Vein := { v with id := 0 }

/-- `createVeinInstance` from `src/app.js` (lines 395-405): a fresh
unlocked instance taking the next id from the retained counter
(`state.nextVeinId++`), with the source's `qlColor || "#cfd8dc"`
default.  The `qlDisplay || ""` default is the identity on strings. -/
def createVeinInstance (n : ℕ) (ore qlDisplay qlColor : String)
    (feasibleSet : Finset Coord) : Vein × ℕ :=
  ({ id := n, ore := ore, qlDisplay := qlDisplay,
     qlColor := if qlColor = "" then "#cfd8dc" else qlColor,
     feasible := feasibleSet, locked := false, lockedCoord := none }, n + 1)

/-- The overlap score of `bestMatchingVein` in `src/app.js`: the number
of candidate tiles already in the vein's feasible set. -/
def overlapScore (v : Vein) (cand : Finset Coord) : ℕ :=
  (cand.filter (fun k => k ∈ v.feasible)).card

/-- The loop of `bestMatchingVein` in `src/app.js` (lines 381-393):
walk the vein list keeping the first index attaining each strictly
larger overlap score, skipping veins of a different ore or quality
display or with an empty feasible set. -/
def goBMV (ore ql : String) (cand : Finset Coord) :
    List Vein → ℕ → Option ℕ → ℕ → Option ℕ
  | [], _, bi, _ => bi
  | v :: vs, i, bi, bs =>
    if (v.ore = ore ∧ v.qlDisplay = ql ∧ v.feasible ≠ ∅) ∧ bs < overlapScore v cand
    then goBMV ore ql cand vs (i + 1) (some i) (overlapScore v cand)
    else goBMV ore ql cand vs (i + 1) bi bs

/-- `bestMatchingVein` from `src/app.js` (lines 381-393), returning the
index of the matched vein (the source returns the object itself, which
the caller mutates in place; the index renders that).  `none` iff no
same-group vein has positive overlap — the source's final
`bestScore > 0 ? best : null` is equivalent because `best` is only ever
assigned together with a positive score. -/
def bestMatchingVein (veins : List Vein) (ore ql : String)
    (cand : Finset Coord) : Option ℕ :=
  goBMV ore ql cand veins 0 none 0

/-- Replace the i-th element of a list by its image under `f` (the
rendering of JS in-place mutation of one array element). -/
def listModify {β : Type} (f : β → β) : ℕ → List β → List β
  | _, [] => []
  | 0, a :: as => f a :: as
  | n + 1, a :: as => a :: listModify f n as

/-- Positional lookup in a list (JS array indexing). -/
def getIdx {β : Type} : List β → ℕ → Option β
  | [], _ => none
  | a :: _, 0 => some a
  | _ :: as, n + 1 => getIdx as n

/-- Lexicographic order on coordinates, used only to extract the sole
element of a singleton `Finset` computably. -/
def coordLe (p q : Coord) : Prop := p.1 < q.1 ∨ (p.1 = q.1 ∧ p.2 ≤ q.2)

instance : DecidableRel coordLe := fun p q => by unfold coordLe; infer_instance

instance : IsTrans Coord coordLe :=
  ⟨by intro a b c hab hbc; unfold coordLe at *; omega⟩

instance : IsAntisymm Coord coordLe :=
  ⟨by intro a b hab hba; unfold coordLe at *; apply Prod.ext <;> omega⟩

instance : IsTotal Coord coordLe := ⟨by intro a b; unfold coordLe; omega⟩

/-- First element of a candidate set in a canonical enumeration: the
rendering of the source's `[...set][0]`, which is only ever applied to
singleton sets (where every enumeration order agrees). -/
def soleOf (s : Finset Coord) : Option Coord := (s.sort coordLe).head?

/-- The in-place update of the matched vein in `incorporateCandidates`
(`src/app.js` lines 432-438): replace the feasible set by its
intersection with the candidate set and, if the result is a singleton,
mark the vein locked at that sole tile (the source's
`[...match.feasible][0]` singleton extraction rendered as `soleOf`). -/
def intersectUpdate (cand : Finset Coord) (v : Vein) : Vein :=
  let f := v.feasible ∩ cand
  if f.card = 1 then
    { v with feasible := f, locked := true, lockedCoord := soleOf f }
  else { v with feasible := f }

/-- `incorporateCandidates` from `src/app.js` (lines 426-439): match
and intersect, or append a fresh unlocked instance seeded with the
candidate set. -/
def incorporateCandidates (veins : List Vein) (n : ℕ)
    (ore ql color : String) (cand : Finset Coord) : List Vein × ℕ :=
  match bestMatchingVein veins ore ql cand with
  | none =>
      let c := createVeinInstance n ore ql color cand
      (veins ++ [c.1], c.2)
  | some i => (listModify (intersectUpdate cand) i veins, n)

/-- The search loop of `lockVeinAt` in `src/app.js` (lines 409-419):
index of the first vein with the given ore and quality display whose
feasible set contains the tile. -/
def lockFind (ore ql : String) (k : Coord) : List Vein → Option ℕ
  | [] => none
  | v :: vs =>
    if v.ore = ore ∧ v.qlDisplay = ql ∧ k ∈ v.feasible then some 0
    else (lockFind ore ql k vs).map (· + 1)

/-- `lockVeinAt` from `src/app.js` (lines 407-424): collapse the first
matching vein containing the tile to a locked singleton (updating its
color, with the source's `qlColor || v.qlColor` default), or append a
fresh pre-locked instance at the tile. -/
def lockVeinAt (veins : List Vein) (n : ℕ) (ore ql color : String)
    (x y : ℤ) : List Vein × ℕ :=
  match lockFind ore ql (x, y) veins with
  | some i =>
      (listModify (fun v =>
        { v with feasible := {(x, y)}, locked := true,
                 lockedCoord := some (x, y),
                 qlColor := if color = "" then v.qlColor else color }) i veins, n)
  | none =>
      let v0 := (createVeinInstance n ore ql color {(x, y)}).1
      (veins ++ [{ v0 with locked := true, lockedCoord := some (x, y) }], n + 1)

/-- Group key of the per-entry trace grouping in
`rebuildVeinsFromEntries` (`src/app.js` line 468): the triple rendered
by the string key `` `${ore}||${qlDisplay}||${qlColor}` ``. -/
abbrev GKey := String × String × String

/-- JS `Map.set` on an association list: update in place (insertion
position preserved) intersecting with the existing set, or append a new
key (the `groups.has` / `groups.set` logic of `rebuildVeinsFromEntries`,
`src/app.js` lines 469-470). -/
def groupsAdd : List (GKey × Finset Coord) → GKey → Finset Coord →
    List (GKey × Finset Coord)
  | [], k, c => [(k, c)]
  | (k', s) :: gs, k, c =>
    if k' = k then (k', s ∩ c) :: gs
    else (k', s) :: groupsAdd gs k c

/-- The trace-grouping loop of `rebuildVeinsFromEntries` (`src/app.js`
lines 457-471): per trace, resolve ore (the `t.ore || "Unknown"`
default), band display and color, compute the wedge from the entry's
source position, skip empty wedges, and intersect into the group of its
key. -/
def buildGroups (source : Coord) :
    List Trace → List (GKey × Finset Coord) → List (GKey × Finset Coord)
  | [], gs => gs
  | t :: ts, gs =>
    let ore := if t.ore = "" then "Unknown" else t.ore
    let band := bandForAdj t.adj
    let qlDisplay := match band with | some b => b.label | none => ""
    let qlColor := match band with | some b => b.color | none => "#cfd8dc"
    let d := strengthToDistance t.strengthWord
    let cand := wedgeCandidates source d t.dir
    if cand = ∅ then buildGroups source ts gs
    else buildGroups source ts (groupsAdd gs (ore, qlDisplay, qlColor) cand)

/-- The incorporation loop of `rebuildVeinsFromEntries` (`src/app.js`
lines 473-477): per consolidated group in insertion order, skip empty
candidate sets and incorporate the rest. -/
def processGroups : List (GKey × Finset Coord) → List Vein → ℕ → List Vein × ℕ
  | [], veins, n => (veins, n)
  | (k, c) :: gs, veins, n =>
    if c = ∅ then processGroups gs veins n
    else
      let r := incorporateCandidates veins n k.1 k.2.1 k.2.2 c
      processGroups gs r.1 r.2

/-- The per-entry body of `rebuildVeinsFromEntries` (`src/app.js` lines
444-477): the mining-context lock-or-create (only when the session has
a truthy ore and a numeric max quality, with quality display
`String(ql)` and color `qlColorForNumber`), then the grouped
directional traces. -/
def processEntry (veins : List Vein) (n : ℕ) (e : Entry) : List Vein × ℕ :=
  let first :=
    match e.parsed.mineOre, e.parsed.mineMaxQl with
    | some ore, some ql =>
        if ore = "" then (veins, n)
        else lockVeinAt veins n ore (toString ql) (qlColorForNumber ql) e.x e.y
    | some _, none => (veins, n)
    | none, _ => (veins, n)
  processGroups (buildGroups (e.x, e.y) e.parsed.traces []) first.1 first.2

/-- Fold of `processEntry` over an entry list from a given vein list
and id counter. -/
def runFrom (veins : List Vein) (n : ℕ) (entries : List Entry) :
    List Vein × ℕ :=
  entries.foldl (fun acc e => processEntry acc.1 acc.2 e) (veins, n)

/-- `rebuildVeinsFromEntries` from `src/app.js` (lines 441-481): replay
all entries in order from an empty vein list.  The id counter
`state.nextVeinId` is retained module state in the source, read and
advanced by `createVeinInstance` and not reset by the rebuild; it is
threaded explicitly here. -/
def rebuildVeinsFromEntries (entries : List Entry) (nextVeinId : ℕ) :
    List Vein × ℕ :=
  runFrom [] nextVeinId entries

lemma isgn_cases (x : ℤ) :
    (x < 0 ∧ isgn x = -1) ∨ (x = 0 ∧ isgn x = 0) ∨ (0 < x ∧ isgn x = 1) := by
  unfold isgn; split_ifs <;> omega

lemma matchesDiagonal_NE (i j : ℤ) : matchesDiagonal i j ⟨1, 1⟩ = true ↔ 0 < i ∧ 0 < j := by
  simp [matchesDiagonal]

lemma matchesDiagonal_NW (i j : ℤ) : matchesDiagonal i j ⟨-1, 1⟩ = true ↔ i < 0 ∧ 0 < j := by
  simp [matchesDiagonal]

lemma matchesDiagonal_SE (i j : ℤ) : matchesDiagonal i j ⟨1, -1⟩ = true ↔ 0 < i ∧ j < 0 := by
  simp [matchesDiagonal]

lemma matchesDiagonal_SW (i j : ℤ) : matchesDiagonal i j ⟨-1, -1⟩ = true ↔ i < 0 ∧ j < 0 := by
  simp [matchesDiagonal]

lemma mem_wedge_E {s p : Coord} {d : ℤ} :
    p ∈ wedgeCandidates s d ⟨1, 0⟩ ↔
      1 ≤ d ∧ 1 ≤ p.1 - s.1 ∧ p.1 - s.1 ≤ d ∧ -d ≤ p.2 - s.2 ∧ p.2 - s.2 ≤ d := by
  by_cases hd : d < 1
  · rw [wedgeCandidates, if_pos hd]; simp; omega
  · rw [wedgeCandidates, if_neg hd, if_pos (by norm_num)]
    simp only [Finset.mem_image, Finset.mem_product, Finset.mem_Icc, Prod.ext_iff]
    constructor
    · rintro ⟨⟨i, j⟩, ⟨⟨hi1, hi2⟩, hj1, hj2⟩, h1, h2⟩
      omega
    · rintro ⟨_, h1, h2, h3, h4⟩
      exact ⟨(p.1 - s.1, p.2 - s.2), ⟨⟨by omega, by omega⟩, by omega, by omega⟩,
        by ring, by ring⟩

lemma mem_wedge_W {s p : Coord} {d : ℤ} :
    p ∈ wedgeCandidates s d ⟨-1, 0⟩ ↔
      1 ≤ d ∧ -d ≤ p.1 - s.1 ∧ p.1 - s.1 ≤ -1 ∧ -d ≤ p.2 - s.2 ∧ p.2 - s.2 ≤ d := by
  by_cases hd : d < 1
  · rw [wedgeCandidates, if_pos hd]; simp; omega
  · rw [wedgeCandidates, if_neg hd, if_pos (by norm_num)]
    simp only [Finset.mem_image, Finset.mem_product, Finset.mem_Icc, Prod.ext_iff]
    constructor
    · rintro ⟨⟨i, j⟩, ⟨⟨hi1, hi2⟩, hj1, hj2⟩, h1, h2⟩
      omega
    · rintro ⟨_, h1, h2, h3, h4⟩
      exact ⟨(s.1 - p.1, p.2 - s.2), ⟨⟨by omega, by omega⟩, by omega, by omega⟩,
        by ring, by ring⟩

lemma mem_wedge_N {s p : Coord} {d : ℤ} :
    p ∈ wedgeCandidates s d ⟨0, 1⟩ ↔
      1 ≤ d ∧ 1 ≤ p.2 - s.2 ∧ p.2 - s.2 ≤ d ∧ -d ≤ p.1 - s.1 ∧ p.1 - s.1 ≤ d := by
  by_cases hd : d < 1
  · rw [wedgeCandidates, if_pos hd]; simp; omega
  · rw [wedgeCandidates, if_neg hd, if_neg (by norm_num), if_pos (by norm_num)]
    simp only [Finset.mem_image, Finset.mem_product, Finset.mem_Icc, Prod.ext_iff]
    constructor
    · rintro ⟨⟨i, j⟩, ⟨⟨hi1, hi2⟩, hj1, hj2⟩, h1, h2⟩
      omega
    · rintro ⟨_, h1, h2, h3, h4⟩
      exact ⟨(p.2 - s.2, p.1 - s.1), ⟨⟨by omega, by omega⟩, by omega, by omega⟩,
        by ring, by ring⟩

lemma mem_wedge_S {s p : Coord} {d : ℤ} :
    p ∈ wedgeCandidates s d ⟨0, -1⟩ ↔
      1 ≤ d ∧ -d ≤ p.2 - s.2 ∧ p.2 - s.2 ≤ -1 ∧ -d ≤ p.1 - s.1 ∧ p.1 - s.1 ≤ d := by
  by_cases hd : d < 1
  · rw [wedgeCandidates, if_pos hd]; simp; omega
  · rw [wedgeCandidates, if_neg hd, if_neg (by norm_num), if_pos (by norm_num)]
    simp only [Finset.mem_image, Finset.mem_product, Finset.mem_Icc, Prod.ext_iff]
    constructor
    · rintro ⟨⟨i, j⟩, ⟨⟨hi1, hi2⟩, hj1, hj2⟩, h1, h2⟩
      omega
    · rintro ⟨_, h1, h2, h3, h4⟩
      exact ⟨(s.2 - p.2, p.1 - s.1), ⟨⟨by omega, by omega⟩, by omega, by omega⟩,
        by ring, by ring⟩

lemma mem_wedge_NE {s p : Coord} {d : ℤ} :
    p ∈ wedgeCandidates s d ⟨1, 1⟩ ↔
      1 ≤ d ∧ 0 < p.1 - s.1 ∧ 0 < p.2 - s.2 ∧ (p.1 - s.1) + (p.2 - s.2) ≤ d := by
  by_cases hd : d < 1
  · rw [wedgeCandidates, if_pos hd]; simp; omega
  · rw [wedgeCandidates, if_neg hd, if_neg (by norm_num), if_neg (by norm_num)]
    simp only [Finset.mem_image, Finset.mem_filter, Finset.mem_product, Finset.mem_Icc,
      Prod.ext_iff]
    constructor
    · rintro ⟨⟨i, j⟩, ⟨⟨⟨hi1, hi2⟩, hj1, hj2⟩, hz, hm, hab⟩, h1, h2⟩
      rw [matchesDiagonal_NE] at hm
      omega
    · rintro ⟨hd1, h1, h2, h3⟩
      refine ⟨(p.1 - s.1, p.2 - s.2), ⟨⟨⟨by omega, by omega⟩, by omega, by omega⟩,
        by omega, (matchesDiagonal_NE _ _).mpr (by omega), by omega⟩, by ring, by ring⟩

lemma mem_wedge_NW {s p : Coord} {d : ℤ} :
    p ∈ wedgeCandidates s d ⟨-1, 1⟩ ↔
      1 ≤ d ∧ p.1 - s.1 < 0 ∧ 0 < p.2 - s.2 ∧ (s.1 - p.1) + (p.2 - s.2) ≤ d := by
  by_cases hd : d < 1
  · rw [wedgeCandidates, if_pos hd]; simp; omega
  · rw [wedgeCandidates, if_neg hd, if_neg (by norm_num), if_neg (by norm_num)]
    simp only [Finset.mem_image, Finset.mem_filter, Finset.mem_product, Finset.mem_Icc,
      Prod.ext_iff]
    constructor
    · rintro ⟨⟨i, j⟩, ⟨⟨⟨hi1, hi2⟩, hj1, hj2⟩, hz, hm, hab⟩, h1, h2⟩
      rw [matchesDiagonal_NW] at hm
      omega
    · rintro ⟨hd1, h1, h2, h3⟩
      refine ⟨(p.1 - s.1, p.2 - s.2), ⟨⟨⟨by omega, by omega⟩, by omega, by omega⟩,
        by omega, (matchesDiagonal_NW _ _).mpr (by omega), by omega⟩, by ring, by ring⟩

lemma mem_wedge_SE {s p : Coord} {d : ℤ} :
    p ∈ wedgeCandidates s d ⟨1, -1⟩ ↔
      1 ≤ d ∧ 0 < p.1 - s.1 ∧ p.2 - s.2 < 0 ∧ (p.1 - s.1) + (s.2 - p.2) ≤ d := by
  by_cases hd : d < 1
  · rw [wedgeCandidates, if_pos hd]; simp; omega
  · rw [wedgeCandidates, if_neg hd, if_neg (by norm_num), if_neg (by norm_num)]
    simp only [Finset.mem_image, Finset.mem_filter, Finset.mem_product, Finset.mem_Icc,
      Prod.ext_iff]
    constructor
    · rintro ⟨⟨i, j⟩, ⟨⟨⟨hi1, hi2⟩, hj1, hj2⟩, hz, hm, hab⟩, h1, h2⟩
      rw [matchesDiagonal_SE] at hm
      omega
    · rintro ⟨hd1, h1, h2, h3⟩
      refine ⟨(p.1 - s.1, p.2 - s.2), ⟨⟨⟨by omega, by omega⟩, by omega, by omega⟩,
        by omega, (matchesDiagonal_SE _ _).mpr (by omega), by omega⟩, by ring, by ring⟩

lemma mem_wedge_SW {s p : Coord} {d : ℤ} :
    p ∈ wedgeCandidates s d ⟨-1, -1⟩ ↔
      1 ≤ d ∧ p.1 - s.1 < 0 ∧ p.2 - s.2 < 0 ∧ (s.1 - p.1) + (s.2 - p.2) ≤ d := by
  by_cases hd : d < 1
  · rw [wedgeCandidates, if_pos hd]; simp; omega
  · rw [wedgeCandidates, if_neg hd, if_neg (by norm_num), if_neg (by norm_num)]
    simp only [Finset.mem_image, Finset.mem_filter, Finset.mem_product, Finset.mem_Icc,
      Prod.ext_iff]
    constructor
    · rintro ⟨⟨i, j⟩, ⟨⟨⟨hi1, hi2⟩, hj1, hj2⟩, hz, hm, hab⟩, h1, h2⟩
      rw [matchesDiagonal_SW] at hm
      omega
    · rintro ⟨hd1, h1, h2, h3⟩
      refine ⟨(p.1 - s.1, p.2 - s.2), ⟨⟨⟨by omega, by omega⟩, by omega, by omega⟩,
        by omega, (matchesDiagonal_SW _ _).mpr (by omega), by omega⟩, by ring, by ring⟩

lemma wedge_empty_of_not_octant {s : Coord} {d : ℤ} {dir : Dir}
    (h : dir ∉ octants) : wedgeCandidates s d dir = ∅ := by
  obtain ⟨dx, dy⟩ := dir
  rw [wedgeCandidates]
  split_ifs with h1 h2 h3
  · rfl
  · exfalso
    rcases h2 with ⟨(rfl | rfl), rfl⟩
    · exact h (by decide)
    · exact h (by decide)
  · exfalso
    rcases h3 with ⟨(rfl | rfl), rfl⟩
    · exact h (by decide)
    · exact h (by decide)
  · have hm : ∀ i j : ℤ, matchesDiagonal i j ⟨dx, dy⟩ ≠ true := by
      intro i j hq
      unfold matchesDiagonal at hq
      split_ifs at hq with c1 c2 c3 c4
      · have e1 : dx = 1 := c1.1
        have e2 : dy = 1 := c1.2
        subst e1; subst e2; exact h (by decide)
      · have e1 : dx = -1 := c2.1
        have e2 : dy = 1 := c2.2
        subst e1; subst e2; exact h (by decide)
      · have e1 : dx = 1 := c3.1
        have e2 : dy = -1 := c3.2
        subst e1; subst e2; exact h (by decide)
      · have e1 : dx = -1 := c4.1
        have e2 : dy = -1 := c4.2
        subst e1; subst e2; exact h (by decide)
    have hf : ((Finset.Icc (-d) d ×ˢ Finset.Icc (-d) d).filter
        (fun q => ¬(q.1 = 0 ∧ q.2 = 0) ∧ matchesDiagonal q.1 q.2 ⟨dx, dy⟩ = true ∧
          (q.1.natAbs : ℤ) + (q.2.natAbs : ℤ) ≤ d)) = ∅ := by
      rw [Finset.filter_eq_empty_iff]
      rintro q - ⟨-, hq, -⟩
      exact hm q.1 q.2 hq
    rw [hf, Finset.image_empty]

/-- Inner companion of a tile: pull each offset to its sign unit. -/
def gmap (s p : Coord) : Coord :=
  (s.1 + isgn (p.1 - s.1), s.2 + isgn (p.2 - s.2))

/-- Outer companion of a tile: twice the sign unit on each axis. -/
def hmap (s p : Coord) : Coord :=
  (s.1 + 2 * isgn (p.1 - s.1), s.2 + 2 * isgn (p.2 - s.2))

/-- A candidate region is pair-closed around a source when every member
brings two distinct companions with it; such a region is never a
singleton. -/
def GPair (s : Coord) (c : Finset Coord) : Prop :=
  ∀ p ∈ c, gmap s p ∈ c ∧ hmap s p ∈ c ∧ gmap s p ≠ hmap s p

lemma wedge_GPair (s : Coord) (d : ℤ) (dir : Dir) (hd : 4 ≤ d) :
    GPair s (wedgeCandidates s d dir) := by
  by_cases hoct : dir ∈ octants
  · fin_cases hoct
    · intro p hp
      rw [mem_wedge_N] at hp
      have hx := isgn_cases (p.1 - s.1)
      have hy := isgn_cases (p.2 - s.2)
      refine ⟨?_, ?_, ?_⟩ <;> simp [mem_wedge_N, gmap, hmap] <;> omega
    · intro p hp
      rw [mem_wedge_S] at hp
      have hx := isgn_cases (p.1 - s.1)
      have hy := isgn_cases (p.2 - s.2)
      refine ⟨?_, ?_, ?_⟩ <;> simp [mem_wedge_S, gmap, hmap] <;> omega
    · intro p hp
      rw [mem_wedge_E] at hp
      have hx := isgn_cases (p.1 - s.1)
      have hy := isgn_cases (p.2 - s.2)
      refine ⟨?_, ?_, ?_⟩ <;> simp [mem_wedge_E, gmap, hmap] <;> omega
    · intro p hp
      rw [mem_wedge_W] at hp
      have hx := isgn_cases (p.1 - s.1)
      have hy := isgn_cases (p.2 - s.2)
      refine ⟨?_, ?_, ?_⟩ <;> simp [mem_wedge_W, gmap, hmap] <;> omega
    · intro p hp
      rw [mem_wedge_NE] at hp
      have hx := isgn_cases (p.1 - s.1)
      have hy := isgn_cases (p.2 - s.2)
      refine ⟨?_, ?_, ?_⟩ <;> simp [mem_wedge_NE, gmap, hmap] <;> omega
    · intro p hp
      rw [mem_wedge_NW] at hp
      have hx := isgn_cases (p.1 - s.1)
      have hy := isgn_cases (p.2 - s.2)
      refine ⟨?_, ?_, ?_⟩ <;> simp [mem_wedge_NW, gmap, hmap] <;> omega
    · intro p hp
      rw [mem_wedge_SE] at hp
      have hx := isgn_cases (p.1 - s.1)
      have hy := isgn_cases (p.2 - s.2)
      refine ⟨?_, ?_, ?_⟩ <;> simp [mem_wedge_SE, gmap, hmap] <;> omega
    · intro p hp
      rw [mem_wedge_SW] at hp
      have hx := isgn_cases (p.1 - s.1)
      have hy := isgn_cases (p.2 - s.2)
      refine ⟨?_, ?_, ?_⟩ <;> simp [mem_wedge_SW, gmap, hmap] <;> omega
  · rw [wedge_empty_of_not_octant hoct]
    intro p hp
    exact absurd hp (Finset.not_mem_empty p)

lemma GPair_inter {s : Coord} {a b : Finset Coord}
    (ha : GPair s a) (hb : GPair s b) : GPair s (a ∩ b) := by
  intro p hp
  rw [Finset.mem_inter] at hp
  obtain ⟨ga, ha2, hne⟩ := ha p hp.1
  obtain ⟨gb, hb2, -⟩ := hb p hp.2
  exact ⟨Finset.mem_inter.mpr ⟨ga, gb⟩, Finset.mem_inter.mpr ⟨ha2, hb2⟩, hne⟩

lemma GPair_two_le_card {s : Coord} {c : Finset Coord}
    (h : GPair s c) (hne : c ≠ ∅) : 2 ≤ c.card := by
  obtain ⟨p, hp⟩ := Finset.nonempty_iff_ne_empty.mpr hne
  obtain ⟨hg, hh, hd⟩ := h p hp
  have : 1 < c.card := Finset.one_lt_card.mpr ⟨_, hg, _, hh, hd⟩
  omega

lemma dist_ge_four (w : Option SWord) : 4 ≤ strengthToDistance w := by
  cases w with
  | none => decide
  | some s => cases s <;> decide

lemma groupsAdd_mem {k : GKey} {c : Finset Coord} :
    ∀ {gs : List (GKey × Finset Coord)}, ∀ kv ∈ groupsAdd gs k c,
      kv ∈ gs ∨ kv.2 = c ∨ ∃ s₀, (kv.1, s₀) ∈ gs ∧ kv.2 = s₀ ∩ c := by
  intro gs
  induction gs with
  | nil =>
    intro kv hkv
    simp only [groupsAdd, List.mem_cons, List.not_mem_nil, or_false] at hkv
    right; left; rw [hkv]
  | cons hd tl ih =>
    obtain ⟨k', s⟩ := hd
    intro kv hkv
    rw [groupsAdd] at hkv
    split_ifs at hkv with he
    · rcases List.mem_cons.mp hkv with rfl | hmem
      · right; right
        exact ⟨s, List.mem_cons_self _ _, rfl⟩
      · left; exact List.mem_cons_of_mem _ hmem
    · rcases List.mem_cons.mp hkv with rfl | hmem
      · left; exact List.mem_cons_self _ _
      · rcases ih kv hmem with h1 | h2 | ⟨s₀, hs₀, he2⟩
        · left; exact List.mem_cons_of_mem _ h1
        · right; left; exact h2
        · right; right; exact ⟨s₀, List.mem_cons_of_mem _ hs₀, he2⟩

lemma buildGroups_GPair (src : Coord) :
    ∀ (ts : List Trace) (gs : List (GKey × Finset Coord)),
      (∀ kv ∈ gs, GPair src kv.2) →
      ∀ kv ∈ buildGroups src ts gs, GPair src kv.2 := by
  intro ts
  induction ts with
  | nil =>
    intro gs hgs kv hkv
    rw [buildGroups] at hkv
    exact hgs kv hkv
  | cons t ts ih =>
    intro gs hgs kv hkv
    simp only [buildGroups] at hkv
    by_cases hc : wedgeCandidates src (strengthToDistance t.strengthWord) t.dir = ∅
    · rw [if_pos hc] at hkv
      exact ih gs hgs kv hkv
    · rw [if_neg hc] at hkv
      refine ih _ ?_ kv hkv
      intro kv' h'
      rcases groupsAdd_mem kv' h' with h1 | h2 | ⟨s₀, h3, h4⟩
      · exact hgs _ h1
      · rw [h2]; exact wedge_GPair src _ _ (dist_ge_four _)
      · rw [h4]
        exact GPair_inter (hgs _ h3) (wedge_GPair src _ _ (dist_ge_four _))

lemma getIdx_mem {β : Type} : ∀ {l : List β} {i : ℕ} {v : β},
    getIdx l i = some v → v ∈ l := by
  intro l
  induction l with
  | nil => intro i v h; simp [getIdx] at h
  | cons a as ih =>
    intro i v h
    cases i with
    | zero =>
      rw [getIdx] at h
      injection h with h
      exact h ▸ List.mem_cons_self a as
    | succ i =>
      rw [getIdx] at h
      exact List.mem_cons_of_mem a (ih h)

lemma mem_iff_getIdx {β : Type} {l : List β} {v : β} :
    v ∈ l ↔ ∃ i, getIdx l i = some v := by
  constructor
  · intro h
    induction l with
    | nil => simp at h
    | cons a as ih =>
      rcases List.mem_cons.mp h with rfl | h2
      · exact ⟨0, rfl⟩
      · obtain ⟨i, hi⟩ := ih h2
        exact ⟨i + 1, hi⟩
  · rintro ⟨i, hi⟩
    exact getIdx_mem hi

lemma listModify_getIdx {β : Type} (f : β → β) :
    ∀ (l : List β) (i j : ℕ),
      getIdx (listModify f i l) j =
        if i = j then (getIdx l j).map f else getIdx l j := by
  intro l
  induction l with
  | nil => intro i j; cases i <;> simp [listModify, getIdx]
  | cons a as ih =>
    intro i j
    cases i with
    | zero =>
      cases j with
      | zero => simp [listModify, getIdx]
      | succ j => simp [listModify, getIdx]
    | succ i =>
      cases j with
      | zero => simp [listModify, getIdx]
      | succ j =>
        rw [listModify, getIdx, getIdx, ih i j]
        by_cases h : i = j
        · rw [if_pos h, if_pos (by omega)]
        · rw [if_neg h, if_neg (by omega)]

lemma listModify_mem {β : Type} {f : β → β} {l : List β} {i : ℕ} {w : β}
    (h : w ∈ listModify f i l) :
    w ∈ l ∨ ∃ v, getIdx l i = some v ∧ w = f v := by
  obtain ⟨j, hj⟩ := mem_iff_getIdx.mp h
  rw [listModify_getIdx] at hj
  by_cases hij : i = j
  · rw [if_pos hij] at hj
    cases hv : getIdx l j with
    | none => rw [hv] at hj; simp at hj
    | some v =>
      rw [hv] at hj
      injection hj with hj
      exact Or.inr ⟨v, hij ▸ hv, hj.symm⟩
  · rw [if_neg hij] at hj
    exact Or.inl (getIdx_mem hj)

lemma listModify_map {β γ : Type} {f : β → β} {g : β → γ}
    (hf : ∀ v, g (f v) = g v) :
    ∀ (i : ℕ) (l : List β), (listModify f i l).map g = l.map g := by
  intro i l
  induction l generalizing i with
  | nil => cases i <;> rfl
  | cons a as ih =>
    cases i with
    | zero => simp [listModify, hf]
    | succ i => simp [listModify, ih i]

lemma uniq_by_id {l : List Vein} (h : (l.map Vein.id).Nodup) :
    ∀ {v w : Vein}, v ∈ l → w ∈ l → v.id = w.id → v = w := by
  induction l with
  | nil => intro v w hv; simp at hv
  | cons a as ih =>
    intro v w hv hw hid
    rw [List.map_cons, List.nodup_cons] at h
    rcases List.mem_cons.mp hv with rfl | hv2 <;>
      rcases List.mem_cons.mp hw with rfl | hw2
    · rfl
    · exact absurd (hid ▸ List.mem_map_of_mem Vein.id hw2) h.1
    · exact absurd (hid ▸ List.mem_map_of_mem Vein.id hv2) h.1
    · exact ih h.2 hv2 hw2 hid

lemma goBMV_spec {ore ql : String} {cand : Finset Coord} {veins : List Vein} :
    ∀ (vs : List Vein) (i : ℕ) (bi : Option ℕ) (bs : ℕ),
      (∀ k v, getIdx vs k = some v → getIdx veins (i + k) = some v) →
      (∀ j, bi = some j → ∃ v, getIdx veins j = some v ∧
        (v.ore = ore ∧ v.qlDisplay = ql ∧ v.feasible ≠ ∅) ∧ 0 < overlapScore v cand) →
      ∀ j, goBMV ore ql cand vs i bi bs = some j →
        ∃ v, getIdx veins j = some v ∧
          (v.ore = ore ∧ v.qlDisplay = ql ∧ v.feasible ≠ ∅) ∧ 0 < overlapScore v cand := by
  intro vs
  induction vs with
  | nil =>
    intro i bi bs hvs hbi j hj
    rw [goBMV] at hj
    exact hbi j hj
  | cons v vs ih =>
    intro i bi bs hvs hbi j hj
    rw [goBMV] at hj
    have hshift : ∀ k w, getIdx vs k = some w → getIdx veins (i + 1 + k) = some w := by
      intro k w hk
      have h2 := hvs (k + 1) w hk
      have he : i + (k + 1) = i + 1 + k := by omega
      rwa [he] at h2
    split_ifs at hj with hcond
    · refine ih (i + 1) (some i) (overlapScore v cand) hshift ?_ j hj
      intro j' hj'
      injection hj' with hj''
      subst hj''
      refine ⟨v, ?_, hcond.1, by omega⟩
      have h0 := hvs 0 v rfl
      rwa [Nat.add_zero] at h0
    · exact ih (i + 1) bi bs hshift hbi j hj

lemma bestMatchingVein_spec {veins : List Vein} {ore ql : String}
    {cand : Finset Coord} {i : ℕ}
    (h : bestMatchingVein veins ore ql cand = some i) :
    ∃ v, getIdx veins i = some v ∧
      (v.ore = ore ∧ v.qlDisplay = ql ∧ v.feasible ≠ ∅) ∧ 0 < overlapScore v cand := by
  refine goBMV_spec veins 0 none 0 ?_ ?_ i h
  · intro k v hk
    rwa [Nat.zero_add]
  · intro j hj
    simp at hj

lemma lockFind_spec {ore ql : String} {k : Coord} :
    ∀ {veins : List Vein} {i : ℕ}, lockFind ore ql k veins = some i →
      ∃ v, getIdx veins i = some v ∧ v.ore = ore ∧ v.qlDisplay = ql ∧ k ∈ v.feasible := by
  intro veins
  induction veins with
  | nil => intro i h; simp [lockFind] at h
  | cons v vs ih =>
    intro i h
    rw [lockFind] at h
    split_ifs at h with hc
    · injection h with h'
      subst h'
      exact ⟨v, rfl, hc⟩
    · cases hl : lockFind ore ql k vs with
      | none => rw [hl] at h; simp at h
      | some i' =>
        rw [hl] at h
        simp at h
        subst h
        obtain ⟨w, hw, hp⟩ := ih hl
        exact ⟨w, hw, hp⟩

lemma lockFind_eq_none {ore ql : String} {k : Coord} :
    ∀ {veins : List Vein},
      (∀ v ∈ veins, ¬(v.ore = ore ∧ v.qlDisplay = ql ∧ k ∈ v.feasible)) →
      lockFind ore ql k veins = none := by
  intro veins
  induction veins with
  | nil => intro _; rfl
  | cons v vs ih =>
    intro h
    rw [lockFind, if_neg (h v (List.mem_cons_self v vs)),
      ih (fun w hw => h w (List.mem_cons_of_mem v hw))]
    rfl

/-- The invariant of claim C1: a vein is locked exactly when its
feasible set is a singleton, and then its locked coordinate is that
sole tile. -/
def VeinInv (v : Vein) : Prop :=
  (v.locked = true ↔ v.feasible.card = 1) ∧
  (v.locked = true → ∃ c, v.lockedCoord = some c ∧ v.feasible = {c})

/-- All vein ids are below the id counter. -/
def Fresh (veins : List Vein) (n : ℕ) : Prop := ∀ v ∈ veins, v.id < n

/-- Vein ids are pairwise distinct. -/
def IdsNodup (veins : List Vein) : Prop := (veins.map Vein.id).Nodup

/-- Every vein of the list satisfies the lock invariant. -/
def AllInv (veins : List Vein) : Prop := ∀ v ∈ veins, VeinInv v

/-- Relation between a vein list and any later state of the same solver
pass that started with id counter `m`: every later vein either is newly
created (id at least `m`) or descends from a vein of the earlier list
with the same id, a feasible set that only shrank, and an undisturbed
lock. -/
def Evolves (veins : List Vein) (m : ℕ) (veins' : List Vein) : Prop :=
  ∀ v' ∈ veins', m ≤ v'.id ∨
    ∃ v ∈ veins, v.id = v'.id ∧ v'.feasible ⊆ v.feasible ∧
      (v.locked = true → v'.locked = true ∧ v'.lockedCoord = v.lockedCoord ∧
        v'.feasible = v.feasible)

/-- Bundle of facts relating solver state before and after a step. -/
def SolverOK (veins : List Vein) (m : ℕ) (veins' : List Vein) (m' : ℕ) : Prop :=
  m ≤ m' ∧ Fresh veins' m' ∧ IdsNodup veins' ∧ AllInv veins' ∧ Evolves veins m veins'

lemma evolves_refl (veins : List Vein) (m : ℕ) : Evolves veins m veins := by
  intro v' hv'
  exact Or.inr ⟨v', hv', rfl, le_refl _, fun h => ⟨h, rfl, rfl⟩⟩

lemma solverOK_refl {veins : List Vein} {m : ℕ}
    (hF : Fresh veins m) (hN : IdsNodup veins) (hI : AllInv veins) :
    SolverOK veins m veins m :=
  ⟨le_refl m, hF, hN, hI, evolves_refl veins m⟩

lemma solverOK_trans {V : List Vein} {m : ℕ} {V' : List Vein} {m' : ℕ}
    {V'' : List Vein} {m'' : ℕ}
    (h1 : SolverOK V m V' m') (h2 : SolverOK V' m' V'' m'') :
    SolverOK V m V'' m'' := by
  obtain ⟨hm1, -, -, -, he1⟩ := h1
  obtain ⟨hm2, hF2, hN2, hI2, he2⟩ := h2
  refine ⟨le_trans hm1 hm2, hF2, hN2, hI2, ?_⟩
  intro v'' hv''
  rcases he2 v'' hv'' with h | ⟨v', hv', hid, hsub, hlock⟩
  · exact Or.inl (le_trans hm1 h)
  · rcases he1 v' hv' with h | ⟨v, hv, hid2, hsub2, hlock2⟩
    · exact Or.inl (hid ▸ le_trans h (le_refl _))
    · refine Or.inr ⟨v, hv, hid2.trans hid, le_trans hsub hsub2, ?_⟩
      intro hl
      obtain ⟨hl1, hc1, hf1⟩ := hlock2 hl
      obtain ⟨hl2, hc2, hf2⟩ := hlock hl1
      exact ⟨hl2, hc2.trans hc1, hf2.trans hf1⟩

lemma soleOf_singleton (c : Coord) : soleOf {c} = some c := by
  simp [soleOf, Finset.sort_singleton]

lemma intersectUpdate_spec {cand : Finset Coord} {v : Vein}
    (hv : VeinInv v) (hov : 0 < overlapScore v cand) :
    VeinInv (intersectUpdate cand v) ∧
    (intersectUpdate cand v).feasible ⊆ v.feasible ∧
    (v.locked = true → (intersectUpdate cand v).locked = true ∧
      (intersectUpdate cand v).lockedCoord = v.lockedCoord ∧
      (intersectUpdate cand v).feasible = v.feasible) ∧
    (intersectUpdate cand v).id = v.id := by
  have hlockedcase : v.locked = true → v.feasible ∩ cand = v.feasible := by
    intro hl
    obtain ⟨c, hcoord, hfe⟩ := hv.2 hl
    have hcc : c ∈ cand := by
      have hpos : (cand.filter (fun k => k ∈ v.feasible)).Nonempty :=
        Finset.card_pos.mp hov
      obtain ⟨t, ht⟩ := hpos
      rw [Finset.mem_filter] at ht
      have : t = c := by
        have := ht.2
        rw [hfe, Finset.mem_singleton] at this
        exact this
      exact this ▸ ht.1
    rw [hfe]
    rw [Finset.inter_eq_left, Finset.singleton_subset_iff]
    exact hcc
  unfold intersectUpdate
  by_cases hcard : (v.feasible ∩ cand).card = 1
  · rw [if_pos hcard]
    obtain ⟨c, hc⟩ := Finset.card_eq_one.mp hcard
    refine ⟨⟨by simp [hcard], ?_⟩, ?_, ?_, rfl⟩
    · intro _
      exact ⟨c, by simp [hc, soleOf_singleton], by simp [hc]⟩
    · exact Finset.inter_subset_left
    · intro hl
      have hfeq := hlockedcase hl
      obtain ⟨c', hcoord, hfe⟩ := hv.2 hl
      refine ⟨rfl, ?_, by simp [hfeq]⟩
      simp only []
      rw [hfeq, hfe, soleOf_singleton, hcoord]
  · rw [if_neg hcard]
    have hnl : v.locked = false := by
      by_contra hcon
      have hl : v.locked = true := by
        cases hb : v.locked
        · exact absurd hb hcon
        · rfl
      have := hlockedcase hl
      rw [this] at hcard
      exact hcard (hv.1.mp hl)
    refine ⟨⟨?_, ?_⟩, Finset.inter_subset_left, ?_, rfl⟩
    · simp only [hnl]
      constructor
      · intro h; exact absurd h (by simp)
      · intro h; exact absurd h hcard
    · intro h
      simp only [hnl] at h
      exact absurd h (by simp)
    · intro hl
      rw [hnl] at hl
      exact absurd hl (by simp)

lemma intersectUpdate_id (cand : Finset Coord) (v : Vein) :
    (intersectUpdate cand v).id = v.id := by
  unfold intersectUpdate
  dsimp only
  split_ifs <;> rfl

lemma idsNodup_snoc {veins : List Vein} {w : Vein} (hN : IdsNodup veins)
    (hfresh : ∀ v ∈ veins, v.id ≠ w.id) : IdsNodup (veins ++ [w]) := by
  unfold IdsNodup at *
  rw [List.map_append, List.nodup_append]
  refine ⟨hN, List.nodup_singleton _, ?_⟩
  intro a ha hb
  simp only [List.map_cons, List.map_nil, List.mem_singleton] at hb
  obtain ⟨v, hv, hva⟩ := List.mem_map.mp ha
  exact hfresh v hv (hva.trans hb)

lemma idsNodup_listModify {f : Vein → Vein} (hf : ∀ v, (f v).id = v.id)
    {veins : List Vein} (hN : IdsNodup veins) (i : ℕ) :
    IdsNodup (listModify f i veins) := by
  unfold IdsNodup
  rw [listModify_map hf]
  exact hN

lemma incorporateCandidates_pres (ore ql color : String)
    {veins : List Vein} {n : ℕ} {cand : Finset Coord}
    (hF : Fresh veins n) (hN : IdsNodup veins) (hI : AllInv veins)
    (hcard : cand.card ≠ 1) :
    SolverOK veins n (incorporateCandidates veins n ore ql color cand).1
      (incorporateCandidates veins n ore ql color cand).2 := by
  cases hb : bestMatchingVein veins ore ql cand with
  | none =>
    simp only [incorporateCandidates, hb, createVeinInstance]
    refine ⟨Nat.le_succ n, ?_, ?_, ?_, ?_⟩
    · intro v hv
      rcases List.mem_append.mp hv with h | h
      · exact Nat.lt_succ_of_lt (hF v h)
      · rw [List.mem_singleton] at h
        rw [h]
        exact Nat.lt_succ_self n
    · exact idsNodup_snoc hN (fun v hv => by
        have := hF v hv
        show v.id ≠ n
        omega)
    · intro v hv
      rcases List.mem_append.mp hv with h | h
      · exact hI v h
      · rw [List.mem_singleton] at h
        subst h
        refine ⟨⟨?_, ?_⟩, ?_⟩
        · intro h2; simp at h2
        · intro h2; exact absurd h2 hcard
        · intro h2; simp at h2
    · intro v' hv'
      rcases List.mem_append.mp hv' with h | h
      · exact Or.inr ⟨v', h, rfl, le_refl _, fun h2 => ⟨h2, rfl, rfl⟩⟩
      · rw [List.mem_singleton] at h
        subst h
        exact Or.inl (le_refl n)
  | some i =>
    obtain ⟨v, hgi, helig, hov⟩ := bestMatchingVein_spec hb
    have hvmem := getIdx_mem hgi
    obtain ⟨hinv, hsub, hlock, hid⟩ := intersectUpdate_spec (hI v hvmem) hov
    simp only [incorporateCandidates, hb]
    refine ⟨le_refl n, ?_, ?_, ?_, ?_⟩
    · intro v' hv'
      rcases listModify_mem hv' with h | ⟨v₀, hgi₀, rfl⟩
      · exact hF v' h
      · have hv₀ : v₀ = v := by
          rw [hgi] at hgi₀
          injection hgi₀ with h2
          exact h2.symm
        subst hv₀
        rw [intersectUpdate_id]
        exact hF v₀ hvmem
    · exact idsNodup_listModify (intersectUpdate_id cand) hN i
    · intro v' hv'
      rcases listModify_mem hv' with h | ⟨v₀, hgi₀, rfl⟩
      · exact hI v' h
      · have hv₀ : v₀ = v := by
          rw [hgi] at hgi₀
          injection hgi₀ with h2
          exact h2.symm
        subst hv₀
        exact hinv
    · intro v' hv'
      rcases listModify_mem hv' with h | ⟨v₀, hgi₀, rfl⟩
      · exact Or.inr ⟨v', h, rfl, le_refl _, fun h2 => ⟨h2, rfl, rfl⟩⟩
      · have hv₀ : v₀ = v := by
          rw [hgi] at hgi₀
          injection hgi₀ with h2
          exact h2.symm
        subst hv₀
        exact Or.inr ⟨v₀, hvmem, (intersectUpdate_id cand v₀).symm ▸ rfl, hsub, hlock⟩

lemma lockVeinAt_pres (ore ql color : String) (x y : ℤ)
    {veins : List Vein} {n : ℕ}
    (hF : Fresh veins n) (hN : IdsNodup veins) (hI : AllInv veins) :
    SolverOK veins n (lockVeinAt veins n ore ql color x y).1
      (lockVeinAt veins n ore ql color x y).2 := by
  cases hb : lockFind ore ql (x, y) veins with
  | some i =>
    obtain ⟨v, hgi, hore, hql, hmem⟩ := lockFind_spec hb
    have hvmem := getIdx_mem hgi
    simp only [lockVeinAt, hb]
    refine ⟨le_refl n, ?_, ?_, ?_, ?_⟩
    · intro v' hv'
      rcases listModify_mem hv' with h | ⟨v₀, hgi₀, rfl⟩
      · exact hF v' h
      · have hv₀ : v₀ = v := by
          rw [hgi] at hgi₀
          injection hgi₀ with h2
          exact h2.symm
        subst hv₀
        exact hF v₀ hvmem
    · refine idsNodup_listModify ?_ hN i
      intro w
      rfl
    · intro v' hv'
      rcases listModify_mem hv' with h | ⟨v₀, hgi₀, rfl⟩
      · exact hI v' h
      · exact ⟨by simp, fun _ => ⟨(x, y), rfl, rfl⟩⟩
    · intro v' hv'
      rcases listModify_mem hv' with h | ⟨v₀, hgi₀, rfl⟩
      · exact Or.inr ⟨v', h, rfl, le_refl _, fun h2 => ⟨h2, rfl, rfl⟩⟩
      · have hv₀ : v₀ = v := by
          rw [hgi] at hgi₀
          injection hgi₀ with h2
          exact h2.symm
        subst hv₀
        refine Or.inr ⟨v₀, hvmem, rfl, ?_, ?_⟩
        · simpa using hmem
        · intro hl
          obtain ⟨c, hcoord, hfe⟩ := (hI v₀ hvmem).2 hl
          have hxy : (x, y) = c := by
            rw [hfe, Finset.mem_singleton] at hmem
            exact hmem
          exact ⟨rfl, by simp [hcoord, hxy], by simp [hfe, hxy]⟩
  | none =>
    simp only [lockVeinAt, hb, createVeinInstance]
    refine ⟨Nat.le_succ n, ?_, ?_, ?_, ?_⟩
    · intro v hv
      rcases List.mem_append.mp hv with h | h
      · exact Nat.lt_succ_of_lt (hF v h)
      · rw [List.mem_singleton] at h
        rw [h]
        exact Nat.lt_succ_self n
    · exact idsNodup_snoc hN (fun v hv => by
        have := hF v hv
        show v.id ≠ n
        omega)
    · intro v hv
      rcases List.mem_append.mp hv with h | h
      · exact hI v h
      · rw [List.mem_singleton] at h
        subst h
        exact ⟨by simp, fun _ => ⟨(x, y), rfl, rfl⟩⟩
    · intro v' hv'
      rcases List.mem_append.mp hv' with h | h
      · exact Or.inr ⟨v', h, rfl, le_refl _, fun h2 => ⟨h2, rfl, rfl⟩⟩
      · rw [List.mem_singleton] at h
        subst h
        exact Or.inl (le_refl n)

lemma processGroups_pres (src : Coord) :
    ∀ (gs : List (GKey × Finset Coord)) (veins : List Vein) (n : ℕ),
      (∀ kv ∈ gs, GPair src kv.2) →
      Fresh veins n → IdsNodup veins → AllInv veins →
      SolverOK veins n (processGroups gs veins n).1 (processGroups gs veins n).2 := by
  intro gs
  induction gs with
  | nil =>
    intro veins n _ hF hN hI
    exact solverOK_refl hF hN hI
  | cons kv gs ih =>
    obtain ⟨k, c⟩ := kv
    intro veins n hg hF hN hI
    simp only [processGroups]
    split_ifs with hc
    · exact ih veins n (fun kv' h' => hg kv' (List.mem_cons_of_mem _ h')) hF hN hI
    · have hcard : c.card ≠ 1 := by
        have h2 : 2 ≤ c.card :=
          GPair_two_le_card (hg (k, c) (List.mem_cons_self _ _)) hc
        omega
      have h1 := incorporateCandidates_pres k.1 k.2.1 k.2.2 hF hN hI hcard
      have h2 := ih _ _ (fun kv' h' => hg kv' (List.mem_cons_of_mem _ h'))
        h1.2.1 h1.2.2.1 h1.2.2.2.1
      exact solverOK_trans h1 h2

lemma processEntry_pres (e : Entry) {veins : List Vein} {n : ℕ}
    (hF : Fresh veins n) (hN : IdsNodup veins) (hI : AllInv veins) :
    SolverOK veins n (processEntry veins n e).1 (processEntry veins n e).2 := by
  have hgroups := buildGroups_GPair (e.x, e.y) e.parsed.traces []
    (by intro kv h; simp at h)
  cases hmo : e.parsed.mineOre with
  | none =>
    simp only [processEntry, hmo]
    exact processGroups_pres (e.x, e.y) _ veins n
      (fun kv h => hgroups kv h) hF hN hI
  | some ore =>
    cases hmq : e.parsed.mineMaxQl with
    | none =>
      simp only [processEntry, hmo, hmq]
      exact processGroups_pres (e.x, e.y) _ veins n
        (fun kv h => hgroups kv h) hF hN hI
    | some ql =>
      simp only [processEntry, hmo, hmq]
      split_ifs with hore
      · exact processGroups_pres (e.x, e.y) _ veins n
          (fun kv h => hgroups kv h) hF hN hI
      · have h1 := lockVeinAt_pres ore (toString ql) (qlColorForNumber ql)
          e.x e.y hF hN hI
        have h2 := processGroups_pres (e.x, e.y) _ _ _
          (fun kv h => hgroups kv h) h1.2.1 h1.2.2.1 h1.2.2.2.1
        exact solverOK_trans h1 h2

lemma runFrom_pres : ∀ (entries : List Entry) (veins : List Vein) (n : ℕ),
    Fresh veins n → IdsNodup veins → AllInv veins →
    SolverOK veins n (runFrom veins n entries).1 (runFrom veins n entries).2 := by
  intro entries
  induction entries with
  | nil =>
    intro veins n hF hN hI
    exact solverOK_refl hF hN hI
  | cons e es ih =>
    intro veins n hF hN hI
    have h1 := processEntry_pres e hF hN hI
    have h2 := ih (processEntry veins n e).1 (processEntry veins n e).2
      h1.2.1 h1.2.2.1 h1.2.2.2.1
    have he : runFrom veins n (e :: es) =
        runFrom (processEntry veins n e).1 (processEntry veins n e).2 es := by
      simp [runFrom]
    rw [he]
    exact solverOK_trans h1 h2

lemma rebuild_solverOK (entries : List Entry) (n : ℕ) :
    SolverOK [] n (rebuildVeinsFromEntries entries n).1
      (rebuildVeinsFromEntries entries n).2 :=
  runFrom_pres entries [] n (by intro v h; simp at h)
    (by simp [IdsNodup]) (by intro v h; simp at h)

lemma runFrom_append (V : List Vein) (n : ℕ) (A B : List Entry) :
    runFrom V n (A ++ B) = runFrom (runFrom V n A).1 (runFrom V n A).2 B := by
  simp [runFrom, List.foldl_append]

lemma rebuild_take_chain (entries : List Entry) (n : ℕ) {k j : ℕ} (hkj : k ≤ j) :
    SolverOK (rebuildVeinsFromEntries (entries.take k) n).1
      (rebuildVeinsFromEntries (entries.take k) n).2
      (rebuildVeinsFromEntries (entries.take j) n).1
      (rebuildVeinsFromEntries (entries.take j) n).2 := by
  have hdecomp : entries.take j = entries.take k ++ (entries.take j).drop k := by
    conv_lhs => rw [← List.take_append_drop k (entries.take j)]
    rw [List.take_take, min_eq_left hkj]
  obtain ⟨-, hF, hN, hI, -⟩ := rebuild_solverOK (entries.take k) n
  have h2 := runFrom_pres ((entries.take j).drop k) _ _ hF hN hI
  have he : rebuildVeinsFromEntries (entries.take j) n =
      runFrom (rebuildVeinsFromEntries (entries.take k) n).1
        (rebuildVeinsFromEntries (entries.take k) n).2
        ((entries.take j).drop k) := by
    conv_lhs => rw [hdecomp]
    rw [rebuildVeinsFromEntries, rebuildVeinsFromEntries, runFrom_append]
  rw [he]
  exact h2

/-- Two vein lists are equal up to id assignment. -/
def veinsR (V W : List Vein) : Prop := V.map stripId = W.map stripId

lemma stripId_fields {v w : Vein} (h : stripId v = stripId w) :
    v.ore = w.ore ∧ v.qlDisplay = w.qlDisplay ∧ v.qlColor = w.qlColor ∧
    v.feasible = w.feasible ∧ v.locked = w.locked ∧ v.lockedCoord = w.lockedCoord := by
  cases v
  cases w
  simp only [stripId, Vein.mk.injEq, eq_self_iff_true, true_and] at h
  exact ⟨h.1, h.2.1, h.2.2.1, h.2.2.2.1, h.2.2.2.2.1, h.2.2.2.2.2⟩

lemma overlapScore_congr {v w : Vein} {cand : Finset Coord}
    (h : v.feasible = w.feasible) : overlapScore v cand = overlapScore w cand := by
  unfold overlapScore
  rw [h]

lemma goBMV_congr {ore ql : String} {cand : Finset Coord} :
    ∀ {V W : List Vein}, veinsR V W → ∀ (i : ℕ) (bi : Option ℕ) (bs : ℕ),
      goBMV ore ql cand V i bi bs = goBMV ore ql cand W i bi bs := by
  intro V
  induction V with
  | nil =>
    intro W h i bi bs
    cases W with
    | nil => rfl
    | cons w ws => simp [veinsR] at h
  | cons v vs ih =>
    intro W h i bi bs
    cases W with
    | nil => simp [veinsR] at h
    | cons w ws =>
      unfold veinsR at h
      simp only [List.map_cons, List.cons.injEq] at h
      obtain ⟨h1, h2⟩ := h
      obtain ⟨ho, hq, hc, hf, hl, hlc⟩ := stripId_fields h1
      rw [goBMV, goBMV, ho, hq, hf, overlapScore_congr hf]
      split_ifs with hcond
      · exact ih h2 (i + 1) (some i) (overlapScore w cand)
      · exact ih h2 (i + 1) bi bs

lemma bestMatchingVein_congr (ore ql : String) (cand : Finset Coord)
    {V W : List Vein} (h : veinsR V W) :
    bestMatchingVein V ore ql cand = bestMatchingVein W ore ql cand :=
  goBMV_congr h 0 none 0

lemma lockFind_congr (ore ql : String) (k : Coord) :
    ∀ {V W : List Vein}, veinsR V W → lockFind ore ql k V = lockFind ore ql k W := by
  intro V
  induction V with
  | nil =>
    intro W h
    cases W with
    | nil => rfl
    | cons w ws => simp [veinsR] at h
  | cons v vs ih =>
    intro W h
    cases W with
    | nil => simp [veinsR] at h
    | cons w ws =>
      unfold veinsR at h
      simp only [List.map_cons, List.cons.injEq] at h
      obtain ⟨h1, h2⟩ := h
      obtain ⟨ho, hq, hc, hf, hl, hlc⟩ := stripId_fields h1
      rw [lockFind, lockFind, ho, hq, hf, ih h2]

lemma intersectUpdate_congr {cand : Finset Coord} {v w : Vein}
    (h : stripId v = stripId w) :
    stripId (intersectUpdate cand v) = stripId (intersectUpdate cand w) := by
  cases v
  cases w
  obtain ⟨ho, hq, hc, hf, hl, hlc⟩ := stripId_fields h
  dsimp only at ho hq hc hf hl hlc
  subst ho
  subst hq
  subst hc
  subst hf
  subst hl
  subst hlc
  unfold intersectUpdate stripId
  dsimp only
  split_ifs <;> rfl

lemma listModify_stripId_congr {f : Vein → Vein}
    (hf : ∀ v w, stripId v = stripId w → stripId (f v) = stripId (f w)) :
    ∀ {V W : List Vein}, veinsR V W → ∀ (i : ℕ),
      veinsR (listModify f i V) (listModify f i W) := by
  intro V
  induction V with
  | nil =>
    intro W h i
    cases W with
    | nil => cases i <;> exact h
    | cons w ws => simp [veinsR] at h
  | cons v vs ih =>
    intro W h i
    cases W with
    | nil => simp [veinsR] at h
    | cons w ws =>
      unfold veinsR at h
      simp only [List.map_cons, List.cons.injEq] at h
      obtain ⟨h1, h2⟩ := h
      cases i with
      | zero =>
        unfold veinsR
        simp only [listModify, List.map_cons, List.cons.injEq]
        exact ⟨hf v w h1, h2⟩
      | succ i =>
        unfold veinsR
        simp only [listModify, List.map_cons, List.cons.injEq]
        exact ⟨h1, ih h2 i⟩

lemma incorporateCandidates_congr {ore ql color : String} {cand : Finset Coord}
    {V W : List Vein} (h : veinsR V W) (n m : ℕ) :
    veinsR (incorporateCandidates V n ore ql color cand).1
      (incorporateCandidates W m ore ql color cand).1 := by
  have hb := bestMatchingVein_congr ore ql cand h
  cases hbv : bestMatchingVein V ore ql cand with
  | none =>
    have hbw : bestMatchingVein W ore ql cand = none := by rw [← hb]; exact hbv
    simp only [incorporateCandidates, hbv, hbw]
    unfold veinsR at *
    simp only [List.map_append, h]
    simp [stripId, createVeinInstance]
  | some i =>
    have hbw : bestMatchingVein W ore ql cand = some i := by rw [← hb]; exact hbv
    simp only [incorporateCandidates, hbv, hbw]
    exact listModify_stripId_congr (fun v w hvw => intersectUpdate_congr hvw) h i

lemma lockVeinAt_congr {ore ql color : String} {x y : ℤ}
    {V W : List Vein} (h : veinsR V W) (n m : ℕ) :
    veinsR (lockVeinAt V n ore ql color x y).1 (lockVeinAt W m ore ql color x y).1 := by
  have hb := lockFind_congr ore ql (x, y) h
  cases hbv : lockFind ore ql (x, y) V with
  | none =>
    have hbw : lockFind ore ql (x, y) W = none := by rw [← hb]; exact hbv
    simp only [lockVeinAt, hbv, hbw]
    unfold veinsR at *
    simp only [List.map_append, h]
    simp [stripId, createVeinInstance]
  | some i =>
    have hbw : lockFind ore ql (x, y) W = some i := by rw [← hb]; exact hbv
    simp only [lockVeinAt, hbv, hbw]
    refine listModify_stripId_congr ?_ h i
    intro v w hvw
    cases v
    cases w
    obtain ⟨ho, hq, hc, hf, hl, hlc⟩ := stripId_fields hvw
    dsimp only at ho hq hc hf hl hlc
    subst ho
    subst hq
    subst hc
    subst hf
    subst hl
    subst hlc
    rfl

lemma processGroups_congr :
    ∀ (gs : List (GKey × Finset Coord)) {V W : List Vein} (n m : ℕ),
      veinsR V W →
      veinsR (processGroups gs V n).1 (processGroups gs W m).1 := by
  intro gs
  induction gs with
  | nil => intro V W n m h; exact h
  | cons kv gs ih =>
    obtain ⟨k, c⟩ := kv
    intro V W n m h
    simp only [processGroups]
    split_ifs with hc
    · exact ih n m h
    · exact ih _ _ (incorporateCandidates_congr h n m)

lemma processEntry_congr {e : Entry} {V W : List Vein} (n m : ℕ)
    (h : veinsR V W) :
    veinsR (processEntry V n e).1 (processEntry W m e).1 := by
  cases hmo : e.parsed.mineOre with
  | none =>
    simp only [processEntry, hmo]
    exact processGroups_congr _ _ _ h
  | some ore =>
    cases hmq : e.parsed.mineMaxQl with
    | none =>
      simp only [processEntry, hmo, hmq]
      exact processGroups_congr _ _ _ h
    | some ql =>
      simp only [processEntry, hmo, hmq]
      split_ifs with hore
      · exact processGroups_congr _ _ _ h
      · exact processGroups_congr _ _ _ (lockVeinAt_congr h n m)

lemma runFrom_congr :
    ∀ (entries : List Entry) {V W : List Vein} (n m : ℕ),
      veinsR V W →
      veinsR (runFrom V n entries).1 (runFrom W m entries).1 := by
  intro entries
  induction entries with
  | nil => intro V W n m h; exact h
  | cons e es ih =>
    intro V W n m h
    have he1 : runFrom V n (e :: es) =
        runFrom (processEntry V n e).1 (processEntry V n e).2 es := by
      simp [runFrom]
    have he2 : runFrom W m (e :: es) =
        runFrom (processEntry W m e).1 (processEntry W m e).2 es := by
      simp [runFrom]
    rw [he1, he2]
    exact ih _ _ (processEntry_congr n m h)

lemma rebuild_congr (entries : List Entry) (n m : ℕ) :
    veinsR (rebuildVeinsFromEntries entries n).1 (rebuildVeinsFromEntries entries m).1 :=
  runFrom_congr entries n m rfl

lemma octantMatch_spec {a b : ℤ} {dir : Dir} (h : octantMatch a b dir = true) :
    (dir.dx = 0 → a = 0) ∧ (dir.dx ≠ 0 → isgn a = dir.dx) ∧
    (dir.dy = 0 → b = 0) ∧ (dir.dy ≠ 0 → isgn b = dir.dy) := by
  have ha := isgn_cases a
  have hb := isgn_cases b
  unfold octantMatch at h
  split_ifs at h with h1 h2 h3 h4
  refine ⟨?_, ?_, ?_, ?_⟩ <;> intro h5 <;> omega

lemma ringCandidates_sign {s : Coord} {d : ℤ} {dir : Dir} {p : Coord}
    (h : p ∈ ringCandidates s d dir) :
    (dir.dx = 0 → p.1 - s.1 = 0) ∧ (dir.dx ≠ 0 → isgn (p.1 - s.1) = dir.dx) ∧
    (dir.dy = 0 → p.2 - s.2 = 0) ∧ (dir.dy ≠ 0 → isgn (p.2 - s.2) = dir.dy) := by
  unfold ringCandidates at h
  split_ifs at h with hd
  · simp at h
  · simp only [Finset.mem_image, Finset.mem_filter, Finset.mem_product, Finset.mem_Icc,
      Prod.ext_iff] at h
    obtain ⟨⟨i, j⟩, ⟨⟨hi, hj⟩, hmax, hoct⟩, hp1, hp2⟩ := h
    have hspec := octantMatch_spec hoct
    have e1 : p.1 - s.1 = i := by omega
    have e2 : p.2 - s.2 = j := by omega
    rw [e1, e2]
    exact hspec

lemma wedgeCandidates_sign {s p : Coord} {d : ℤ} {dir : Dir}
    (hoct : dir ∈ octants) (h : p ∈ wedgeCandidates s d dir) :
    (dir.dx = 1 → 1 ≤ p.1 - s.1) ∧ (dir.dx = -1 → p.1 - s.1 ≤ -1) ∧
    (dir.dx = 0 → -d ≤ p.1 - s.1 ∧ p.1 - s.1 ≤ d) ∧
    (dir.dy = 1 → 1 ≤ p.2 - s.2) ∧ (dir.dy = -1 → p.2 - s.2 ≤ -1) ∧
    (dir.dy = 0 → -d ≤ p.2 - s.2 ∧ p.2 - s.2 ≤ d) := by
  fin_cases hoct
  · rw [mem_wedge_N] at h
    refine ⟨?_, ?_, ?_, ?_, ?_, ?_⟩ <;> intro h1 <;> dsimp only at h1 <;> omega
  · rw [mem_wedge_S] at h
    refine ⟨?_, ?_, ?_, ?_, ?_, ?_⟩ <;> intro h1 <;> dsimp only at h1 <;> omega
  · rw [mem_wedge_E] at h
    refine ⟨?_, ?_, ?_, ?_, ?_, ?_⟩ <;> intro h1 <;> dsimp only at h1 <;> omega
  · rw [mem_wedge_W] at h
    refine ⟨?_, ?_, ?_, ?_, ?_, ?_⟩ <;> intro h1 <;> dsimp only at h1 <;> omega
  · rw [mem_wedge_NE] at h
    refine ⟨?_, ?_, ?_, ?_, ?_, ?_⟩ <;> intro h1 <;> dsimp only at h1 <;> omega
  · rw [mem_wedge_NW] at h
    refine ⟨?_, ?_, ?_, ?_, ?_, ?_⟩ <;> intro h1 <;> dsimp only at h1 <;> omega
  · rw [mem_wedge_SE] at h
    refine ⟨?_, ?_, ?_, ?_, ?_, ?_⟩ <;> intro h1 <;> dsimp only at h1 <;> omega
  · rw [mem_wedge_SW] at h
    refine ⟨?_, ?_, ?_, ?_, ?_, ?_⟩ <;> intro h1 <;> dsimp only at h1 <;> omega

lemma lockFind_first {ore ql : String} {k : Coord} :
    ∀ {veins : List Vein} {i : ℕ} {v : Vein},
      getIdx veins i = some v →
      (v.ore = ore ∧ v.qlDisplay = ql ∧ k ∈ v.feasible) →
      (∀ j w, j < i → getIdx veins j = some w →
        ¬(w.ore = ore ∧ w.qlDisplay = ql ∧ k ∈ w.feasible)) →
      lockFind ore ql k veins = some i := by
  intro veins
  induction veins with
  | nil => intro i v h; simp [getIdx] at h
  | cons w ws ih =>
    intro i v hgi hpred hfirst
    cases i with
    | zero =>
      rw [getIdx] at hgi
      injection hgi with h2
      subst h2
      rw [lockFind, if_pos hpred]
    | succ i =>
      have hw : ¬(w.ore = ore ∧ w.qlDisplay = ql ∧ k ∈ w.feasible) :=
        hfirst 0 w (Nat.succ_pos i) rfl
      rw [lockFind, if_neg hw]
      have hrec : lockFind ore ql k ws = some i := by
        refine ih hgi hpred ?_
        intro j u hj hu
        exact hfirst (j + 1) u (by omega) hu
      rw [hrec]
      rfl

lemma processGroups_empty_skip (k : GKey) (gs : List (GKey × Finset Coord))
    (veins : List Vein) (n : ℕ) :
    processGroups ((k, (∅ : Finset Coord)) :: gs) veins n = processGroups gs veins n := by
  simp [processGroups]

lemma incorporate_contradiction_source {veins : List Vein} {n : ℕ}
    {ore ql color : String} {cand : Finset Coord} (hne : cand ≠ ∅)
    {v' : Vein} (hv' : v' ∈ (incorporateCandidates veins n ore ql color cand).1)
    (hempty : v'.feasible = ∅) :
    ∃ v ∈ veins, v.id = v'.id ∧ v'.feasible = v.feasible ∩ cand := by
  cases hb : bestMatchingVein veins ore ql cand with
  | none =>
    simp only [incorporateCandidates, hb, createVeinInstance] at hv'
    rcases List.mem_append.mp hv' with h | h
    · exact ⟨v', h, rfl, by rw [hempty, Finset.empty_inter]⟩
    · rw [List.mem_singleton] at h
      subst h
      exact absurd hempty hne
  | some i =>
    simp only [incorporateCandidates, hb] at hv'
    rcases listModify_mem hv' with h | ⟨v₀, hgi₀, rfl⟩
    · exact ⟨v', h, rfl, by rw [hempty, Finset.empty_inter]⟩
    · refine ⟨v₀, getIdx_mem hgi₀, (intersectUpdate_id cand v₀).symm, ?_⟩
      unfold intersectUpdate at hempty ⊢
      dsimp only at hempty ⊢
      split_ifs at hempty ⊢ with hc
      · exfalso
        have h2 : v₀.feasible ∩ cand = ∅ := hempty
        rw [h2] at hc
        simp at hc
      · rfl

/-- A slight trace of normal-quality iron to the east, as parsed from
the log line `You spot a slight trace of normal quality iron (east).` -/
def ironTraceE : Trace := ⟨"iron", some Adj.normal, some SWord.slight, ⟨1, 0⟩⟩

/-- A slight trace of normal-quality iron to the west. -/
def ironTraceW : Trace := ⟨"iron", some Adj.normal, some SWord.slight, ⟨-1, 0⟩⟩

/-- Entry at reference (0,0) with the single east iron trace. -/
def entryEast : Entry := ⟨0, 0, ⟨none, none, [ironTraceE]⟩⟩

/-- Entry at reference (5,0) with the single west iron trace. -/
def entryWest : Entry := ⟨5, 0, ⟨none, none, [ironTraceW]⟩⟩

/-- Entry at reference (0,0) whose session has mining context
`You would mine iron here. It has a max quality of 45.` and no traces. -/
def entryMine : Entry := ⟨0, 0, ⟨some "iron", some 45, []⟩⟩

/-- Entry at reference (2,0) with the same mining context. -/
def entryMineAt : Entry := ⟨2, 0, ⟨some "iron", some 45, []⟩⟩

/-- The vein instance produced by replaying `entryMine` alone. -/
def mineVein : Vein :=
  ⟨1, "iron", "45", "#3ddc84", {((0 : ℤ), (0 : ℤ))}, true, some (0, 0)⟩

/-- A vein instance whose feasible set is already empty (CONTRADICTED). -/
def emptyVein : Vein := ⟨1, "iron", "40-59", "#3ddc84", ∅, false, none⟩

/-- An unlocked vein instance carrying the numeric quality label "45"
whose feasible set contains the tile (2,0). -/
def numVein : Vein :=
  ⟨1, "iron", "45", "#3ddc84", {((2 : ℤ), (0 : ℤ)), ((3 : ℤ), (0 : ℤ))}, false, none⟩

/-- C1: for every vein instance produced by the solver
(`rebuildVeinsFromEntries`, over any entry list and any retained id
counter), `locked = true` holds if and only if the feasible tile set has
exactly one element, and a locked instance's `lockedCoord` is that sole
element.  This covers in particular instances newly created from a
consolidated candidate set of size 1: with the solver's strength table
(all distances at least 6) every consolidated candidate set that
survives the nonemptiness guard has at least two tiles, so creation
never receives a singleton and new instances are consistently
unlocked. -/
theorem c1_locked_iff_singleton (entries : List Entry) (n : ℕ) (v : Vein)
    (hv : v ∈ (rebuildVeinsFromEntries entries n).1) :
    (v.locked = true ↔ v.feasible.card = 1) ∧
    (v.locked = true → ∃ c, v.lockedCoord = some c ∧ v.feasible = {c}) :=
  (rebuild_solverOK entries n).2.2.2.1 v hv

/-- Witness for C1: the locked instance produced by a mining-context
entry satisfies the invariant. -/
theorem c1_locked_iff_singleton_witness :
    (mineVein.locked = true ↔ mineVein.feasible.card = 1) ∧
    (mineVein.locked = true → ∃ c, mineVein.lockedCoord = some c ∧
      mineVein.feasible = {c}) :=
  c1_locked_iff_singleton [entryMine] 1 mineVein (by decide)

/-- C2 counterexample: the claim says an `east` candidate must have
exactly zero north/south offset, but `wedgeCandidates` (the candidate
computation of `src/app.js`) from reference (0,0) with the `slight`
distance and the east direction vector contains the tile (1,1), whose
north offset is 1, not 0. -/
theorem c2_counterexample :
    ((1 : ℤ), (1 : ℤ)) ∈ wedgeCandidates ((0 : ℤ), (0 : ℤ))
      (strengthToDistance (some SWord.slight)) ⟨1, 0⟩ ∧
    ¬(((1 : ℤ), (1 : ℤ)).2 - ((0 : ℤ), (0 : ℤ)).2 = 0) := by decide

/-- C2 amended: in `src/app.js`, every `wedgeCandidates` tile matches
the direction vector's sign on each axis where the component is
nonzero, while on a zero-component axis the offset is merely bounded by
the distance (lateral spread up to `d`), not exactly zero; the ring
variant of `src/unnamed/part_001` (`ringCandidates` via `octantMatch`)
satisfies the original sign-matching property in full, including the
exact-zero requirement on zero-component axes. -/
theorem c2_sign_matching_amended :
    (∀ (s p : Coord) (d : ℤ) (dir : Dir), dir ∈ octants →
      p ∈ wedgeCandidates s d dir →
      (dir.dx = 1 → 1 ≤ p.1 - s.1) ∧ (dir.dx = -1 → p.1 - s.1 ≤ -1) ∧
      (dir.dx = 0 → -d ≤ p.1 - s.1 ∧ p.1 - s.1 ≤ d) ∧
      (dir.dy = 1 → 1 ≤ p.2 - s.2) ∧ (dir.dy = -1 → p.2 - s.2 ≤ -1) ∧
      (dir.dy = 0 → -d ≤ p.2 - s.2 ∧ p.2 - s.2 ≤ d)) ∧
    (∀ (s p : Coord) (d : ℤ) (dir : Dir), p ∈ ringCandidates s d dir →
      (dir.dx = 0 → p.1 - s.1 = 0) ∧ (dir.dx ≠ 0 → isgn (p.1 - s.1) = dir.dx) ∧
      (dir.dy = 0 → p.2 - s.2 = 0) ∧ (dir.dy ≠ 0 → isgn (p.2 - s.2) = dir.dy)) :=
  ⟨fun _ _ _ _ hoct h => wedgeCandidates_sign hoct h,
   fun _ _ _ _ h => ringCandidates_sign h⟩

/-- Witness for the amended C2: tile (2,3) of the east wedge lies
strictly east. -/
theorem c2_sign_matching_amended_witness :
    1 ≤ ((2 : ℤ), (3 : ℤ)).1 - ((0 : ℤ), (0 : ℤ)).1 :=
  (c2_sign_matching_amended.1 ((0 : ℤ), (0 : ℤ)) ((2 : ℤ), (3 : ℤ)) 6 ⟨1, 0⟩
    (by decide) (by decide)).1 rfl

/-- C3 counterexample: entry 1 produces an iron vein of band "40-59"
whose feasible set contains the tile (2,0) (third conjunct); entry 2 is
a mining-context lock for iron of exact quality 45 (derived band
40-59) at that tile.  The claim requires the lock to collapse that
existing instance; instead the solver leaves it untouched (still 78
tiles, unlocked) and creates a separate pre-locked instance whose
quality label is the numeric string "45", because `lockVeinAt` matches
on the display string `String(ql)`, never on the derived band. -/
theorem c3_counterexample :
    ((rebuildVeinsFromEntries [entryEast, entryMineAt] 1).1.map Vein.qlDisplay =
      ["40-59", "45"]) ∧
    ((rebuildVeinsFromEntries [entryEast, entryMineAt] 1).1.map Vein.locked =
      [false, true]) ∧
    ((2 : ℤ), (0 : ℤ)) ∈ wedgeCandidates ((0 : ℤ), (0 : ℤ))
      (strengthToDistance (some SWord.slight)) ⟨1, 0⟩ ∧
    ((rebuildVeinsFromEntries [entryEast, entryMineAt] 1).1.map
      (fun v => v.feasible.card) = [78, 1]) := by decide

/-- C3 amended: a mining-context lock uses `(ore, String(ql))` — the
exact numeric quality string — as its quality identity, not the derived
band of `ql`.  Three facts characterize `lockVeinAt`: (1) when some
instance has the same ore and the same numeric display label and its
feasible set contains the reference tile, the FIRST such instance is
collapsed to the singleton of that tile and marked locked there (its
color updated), every other instance is left untouched at its position,
no new instance is created and the id counter does not advance;
(2) otherwise — no instance with that ore and numeric label contains
the tile — every existing instance is left untouched and a fresh
pre-locked instance at the tile is appended; (3) an instance whose
display label differs from the numeric string (in particular any
instance created from band-adjective traces, whose label is a band
string) is never the collapsed one: it survives in the output
unchanged. -/
theorem c3_mining_lock_amended :
    (∀ (veins : List Vein) (n : ℕ) (ore color : String) (ql x y : ℤ)
      (i : ℕ) (v : Vein),
      getIdx veins i = some v →
      (v.ore = ore ∧ v.qlDisplay = toString ql ∧ (x, y) ∈ v.feasible) →
      (∀ j w, j < i → getIdx veins j = some w →
        ¬(w.ore = ore ∧ w.qlDisplay = toString ql ∧ (x, y) ∈ w.feasible)) →
      lockVeinAt veins n ore (toString ql) color x y =
        (listModify (fun w =>
          { w with feasible := {(x, y)}, locked := true,
                   lockedCoord := some (x, y),
                   qlColor := if color = "" then w.qlColor else color }) i veins, n)) ∧
    (∀ (veins : List Vein) (n : ℕ) (ore color : String) (ql x y : ℤ),
      (∀ v ∈ veins, ¬(v.ore = ore ∧ v.qlDisplay = toString ql ∧ (x, y) ∈ v.feasible)) →
      lockVeinAt veins n ore (toString ql) color x y =
        (veins ++ [{ id := n, ore := ore, qlDisplay := toString ql,
                     qlColor := if color = "" then "#cfd8dc" else color,
                     feasible := {(x, y)}, locked := true,
                     lockedCoord := some (x, y) }], n + 1)) ∧
    (∀ (veins : List Vein) (n : ℕ) (ore color : String) (ql x y : ℤ) (v : Vein),
      v ∈ veins → v.qlDisplay ≠ toString ql →
      v ∈ (lockVeinAt veins n ore (toString ql) color x y).1) := by
  refine ⟨?_, ?_, ?_⟩
  · intro veins n ore color ql x y i v hgi hpred hfirst
    have hb := lockFind_first hgi hpred hfirst
    simp only [lockVeinAt, hb]
  · intro veins n ore color ql x y h
    have hb : lockFind ore (toString ql) (x, y) veins = none := lockFind_eq_none h
    simp only [lockVeinAt, hb, createVeinInstance]
  · intro veins n ore color ql x y v hv hlabel
    cases hb : lockFind ore (toString ql) (x, y) veins with
    | none =>
      simp only [lockVeinAt, hb, createVeinInstance]
      exact List.mem_append.mpr (Or.inl hv)
    | some i =>
      obtain ⟨v', hgi, hore', hql', hmem'⟩ := lockFind_spec hb
      simp only [lockVeinAt, hb]
      obtain ⟨j, hj⟩ := mem_iff_getIdx.mp hv
      have hij : i ≠ j := by
        intro he
        rw [he, hj] at hgi
        injection hgi with h2
        rw [h2] at hlabel
        exact hlabel hql'
      have hr : getIdx (listModify (fun w =>
          { w with feasible := {(x, y)}, locked := true,
                   lockedCoord := some (x, y),
                   qlColor := if color = "" then w.qlColor else color }) i veins) j =
          some v := by
        rw [listModify_getIdx, if_neg hij]
        exact hj
      exact getIdx_mem hr

/-- Witness for the amended C3, exercising all three branches: the
45-quality lock collapses an instance that carries the numeric label
"45" and contains the tile; against a vein with the band label "40-59"
it instead appends a fresh pre-locked instance; and the band-labelled
vein survives the call unchanged. -/
theorem c3_mining_lock_amended_witness :
    (lockVeinAt [numVein] 2 "iron" (toString (45 : ℤ)) (qlColorForNumber 45) 2 0 =
      (listModify (fun w =>
        { w with feasible := {((2 : ℤ), (0 : ℤ))}, locked := true,
                 lockedCoord := some (2, 0),
                 qlColor := if qlColorForNumber 45 = "" then w.qlColor
                            else qlColorForNumber 45 }) 0 [numVein], 2)) ∧
    (lockVeinAt [emptyVein] 2 "iron" (toString (45 : ℤ)) (qlColorForNumber 45) 2 0 =
      ([emptyVein] ++ [{ id := 2, ore := "iron", qlDisplay := toString (45 : ℤ),
                         qlColor := if qlColorForNumber 45 = "" then "#cfd8dc"
                                    else qlColorForNumber 45,
                         feasible := {((2 : ℤ), (0 : ℤ))}, locked := true,
                         lockedCoord := some (2, 0) }], 3)) ∧
    emptyVein ∈ (lockVeinAt [emptyVein] 2 "iron" (toString (45 : ℤ))
      (qlColorForNumber 45) 2 0).1 :=
  ⟨c3_mining_lock_amended.1 [numVein] 2 "iron" (qlColorForNumber 45) 45 2 0 0 numVein
     (by decide) (by decide) (fun j w hj _ => absurd hj (Nat.not_lt_zero j)),
   c3_mining_lock_amended.2.1 [emptyVein] 2 "iron" (qlColorForNumber 45) 45 2 0
     (by decide),
   c3_mining_lock_amended.2.2 [emptyVein] 2 "iron" (qlColorForNumber 45) 45 2 0
     emptyVein (by decide) (by decide)⟩

/-- C4 counterexample: the solver reads and advances the retained
`state.nextVeinId` counter, so two successive calls of
`rebuildVeinsFromEntries` on the same one-entry list assign different
ids: the first call's vein has id 1, the second call's has id 2. -/
theorem c4_counterexample :
    ((rebuildVeinsFromEntries [entryMine] 1).1.map Vein.id = [1]) ∧
    ((rebuildVeinsFromEntries [entryMine]
        ((rebuildVeinsFromEntries [entryMine] 1).2)).1.map Vein.id = [2]) ∧
    ([1] ≠ ([2] : List ℕ)) := by decide

/-- C4 amended: calling the rebuild twice in succession on the same
entry list yields vein lists that are identical except for the ids:
same length, and the same ore, quality label, color, feasible set,
locked flag and locked coordinate at every position; only the ids
differ, continuing from the retained `nextVeinId` counter. -/
theorem c4_rebuild_deterministic_amended (entries : List Entry) (n : ℕ) :
    ((rebuildVeinsFromEntries entries
        ((rebuildVeinsFromEntries entries n).2)).1.map stripId) =
      ((rebuildVeinsFromEntries entries n).1.map stripId) :=
  rebuild_congr entries _ n

/-- C5: monotonic narrowing — for any vein instance present both after
the first `k` entries and after the first `k+1` entries of a solve pass
(same id), the later feasible set is a subset of the earlier one. -/
theorem c5_monotonic_narrowing (entries : List Entry) (n k : ℕ) (v v' : Vein)
    (hv : v ∈ (rebuildVeinsFromEntries (entries.take k) n).1)
    (hv' : v' ∈ (rebuildVeinsFromEntries (entries.take (k + 1)) n).1)
    (hid : v'.id = v.id) :
    v'.feasible ⊆ v.feasible := by
  obtain ⟨-, hF, hN, -, -⟩ := rebuild_solverOK (entries.take k) n
  obtain ⟨-, -, -, -, hE⟩ := rebuild_take_chain entries n (Nat.le_succ k)
  rcases hE v' hv' with h | ⟨v₀, hv₀, hid₀, hsub, -⟩
  · exfalso
    have h2 := hF v hv
    rw [hid] at h
    omega
  · have he : v₀ = v := uniq_by_id hN hv₀ hv (hid₀.trans hid)
    rwa [← he]

/-- Witness for C5 at a concrete two-entry list. -/
theorem c5_monotonic_narrowing_witness :
    mineVein ∈ (rebuildVeinsFromEntries ([entryMine, entryMine].take 1) 1).1 ∧
    mineVein ∈ (rebuildVeinsFromEntries ([entryMine, entryMine].take 2) 1).1 ∧
    mineVein.feasible ⊆ mineVein.feasible :=
  ⟨by decide, by decide,
   c5_monotonic_narrowing [entryMine, entryMine] 1 1 mineVein mineVein
     (by decide) (by decide) rfl⟩

/-- C6: lock stability — a vein instance locked after the first `k`
entries of a solve pass is still locked with the same coordinate (and
the same singleton feasible set) after any longer prefix of the same
pass. -/
theorem c6_lock_stability (entries : List Entry) (n k j : ℕ) (hkj : k ≤ j)
    (v v' : Vein)
    (hv : v ∈ (rebuildVeinsFromEntries (entries.take k) n).1)
    (hl : v.locked = true)
    (hv' : v' ∈ (rebuildVeinsFromEntries (entries.take j) n).1)
    (hid : v'.id = v.id) :
    v'.locked = true ∧ v'.lockedCoord = v.lockedCoord ∧
      v'.feasible = v.feasible := by
  obtain ⟨-, hF, hN, -, -⟩ := rebuild_solverOK (entries.take k) n
  obtain ⟨-, -, -, -, hE⟩ := rebuild_take_chain entries n hkj
  rcases hE v' hv' with h | ⟨v₀, hv₀, hid₀, -, hlock⟩
  · exfalso
    have h2 := hF v hv
    rw [hid] at h
    omega
  · have he : v₀ = v := uniq_by_id hN hv₀ hv (hid₀.trans hid)
    rw [he] at hlock
    exact hlock hl

/-- Witness for C6 at a concrete two-entry list. -/
theorem c6_lock_stability_witness :
    mineVein ∈ (rebuildVeinsFromEntries ([entryMine, entryMine].take 1) 1).1 ∧
    (mineVein.locked = true ∧ mineVein.lockedCoord = mineVein.lockedCoord ∧
      mineVein.feasible = mineVein.feasible) :=
  ⟨by decide,
   c6_lock_stability [entryMine, entryMine] 1 1 2 (by omega) mineVein mineVein
     (by decide) (by decide) (by decide) rfl⟩

/-- C7 counterexample: on the two-entry scenario (slight trace of
normal-quality iron east of (0,0), then west of (5,0)) the solver's
single vein has feasible set `[1,4] × [-6,6]`, which contains the tile
(1,1); that tile does not lie on the straight line between the two
reference tiles (both of which have y = 0), refuting the claim that the
feasible set lies entirely on that line. -/
theorem c7_counterexample :
    ((rebuildVeinsFromEntries [entryEast, entryWest] 1).1.map Vein.feasible =
      [Finset.Icc (1 : ℤ) 4 ×ˢ Finset.Icc (-6 : ℤ) 6]) ∧
    ((1 : ℤ), (1 : ℤ)) ∈ (Finset.Icc (1 : ℤ) 4 ×ˢ Finset.Icc (-6 : ℤ) 6) ∧
    ¬(((1 : ℤ), (1 : ℤ)).2 = 0) := by decide

/-- C7 amended: the scenario produces a single iron vein of band
"40-59" whose feasible set is the non-empty bounded rectangle
`[1,4] × [-6,6]` — strictly between the two references on the x axis
but spreading up to 6 tiles laterally off the connecting line — with 52
tiles, hence not locked (the singleton-lock rule does not fire). -/
theorem c7_scenario_amended :
    ((rebuildVeinsFromEntries [entryEast, entryWest] 1).1.map Vein.ore =
      ["iron"]) ∧
    ((rebuildVeinsFromEntries [entryEast, entryWest] 1).1.map Vein.qlDisplay =
      ["40-59"]) ∧
    ((rebuildVeinsFromEntries [entryEast, entryWest] 1).1.map Vein.feasible =
      [Finset.Icc (1 : ℤ) 4 ×ˢ Finset.Icc (-6 : ℤ) 6]) ∧
    ((rebuildVeinsFromEntries [entryEast, entryWest] 1).1.map
      (fun v => v.feasible.card) = [52]) ∧
    ((rebuildVeinsFromEntries [entryEast, entryWest] 1).1.map Vein.locked =
      [false]) ∧
    (Finset.Icc (1 : ℤ) 4 ×ˢ Finset.Icc (-6 : ℤ) 6).Nonempty := by decide

/-- C8: both strength-word tables are total — every recognized strength
word maps to a distance of at least 1 — and monotonic along the order
slight, faint, minuscule, vague, indistinct, with slight mapping to the
nearest distance and indistinct to the farthest; this holds for
`strengthToDistance` of `src/app.js` (6, 8, 8, 10, 12) and for
`strengthToDistanceV3` of `src/unnamed/part_001` (2, 3, 3, 4, 5). -/
theorem c8_strength_monotone_total :
    (∀ w : SWord, 1 ≤ strengthToDistance (some w)) ∧
    strengthToDistance (some SWord.slight) ≤ strengthToDistance (some SWord.faint) ∧
    strengthToDistance (some SWord.faint) ≤ strengthToDistance (some SWord.minuscule) ∧
    strengthToDistance (some SWord.minuscule) ≤ strengthToDistance (some SWord.vague) ∧
    strengthToDistance (some SWord.vague) ≤ strengthToDistance (some SWord.indistinct) ∧
    (∀ w : SWord, strengthToDistance (some SWord.slight) ≤ strengthToDistance (some w)) ∧
    (∀ w : SWord, strengthToDistance (some w) ≤ strengthToDistance (some SWord.indistinct)) ∧
    (∀ w : SWord, 1 ≤ strengthToDistanceV3 (some w)) ∧
    strengthToDistanceV3 (some SWord.slight) ≤ strengthToDistanceV3 (some SWord.faint) ∧
    strengthToDistanceV3 (some SWord.faint) ≤ strengthToDistanceV3 (some SWord.minuscule) ∧
    strengthToDistanceV3 (some SWord.minuscule) ≤ strengthToDistanceV3 (some SWord.vague) ∧
    strengthToDistanceV3 (some SWord.vague) ≤ strengthToDistanceV3 (some SWord.indistinct) ∧
    (∀ w : SWord, strengthToDistanceV3 (some SWord.slight) ≤ strengthToDistanceV3 (some w)) ∧
    (∀ w : SWord, strengthToDistanceV3 (some w) ≤ strengthToDistanceV3 (some SWord.indistinct)) := by
  refine ⟨fun w => ?_, by decide, by decide, by decide, by decide,
    fun w => ?_, fun w => ?_, fun w => ?_, by decide, by decide, by decide,
    by decide, fun w => ?_, fun w => ?_⟩ <;> cases w <;> decide

/-- C9: the parser control flow of `parseLogBlock` fails (returns the
source's `null`) exactly when no line passes the session-start trigger
test, every other unrecognized or malformed line being skipped without
aborting; and on failure `addEntry` rejects the submission, leaving the
entry list unchanged (no partial entry is stored). -/
theorem c9_parse_failure_iff_no_start (α : Type) (o : LogOracle α)
    (lines : List α) (entries : List Entry) (dx dy : ℤ) :
    (parseLogBlock o lines = none ↔ ∀ l ∈ lines, o.startTrig l = false) ∧
    (parseLogBlock o lines = none → addEntry o entries dx dy lines = entries) := by
  constructor
  · induction lines with
    | nil => simp [parseLogBlock, parseStart]
    | cons l ls ih =>
      rw [parseLogBlock, parseStart]
      split_ifs with hs
      · constructor
        · intro h
          exact absurd h (by simp)
        · intro h
          have h2 := h l (List.mem_cons_self l ls)
          rw [h2] at hs
          exact absurd hs (by simp)
      · rw [parseLogBlock] at ih
        constructor
        · intro h l' hl'
          rcases List.mem_cons.mp hl' with rfl | h2
          · simpa using hs
          · exact (ih.mp h) l' h2
        · intro h
          exact ih.mpr (fun l' hl' => h l' (List.mem_cons_of_mem l hl'))
  · intro h
    cases lines with
    | nil => rfl
    | cons l ls => simp only [addEntry, h]

/-- An oracle on a unit line type under which no line matches any
recognizer, used to witness C9. -/
def nullOracle : LogOracle Unit :=
  ⟨fun _ => false, fun _ => false, fun _ => none, fun _ => none, fun _ => none,
   fun _ => none, fun _ => none, fun _ => none, fun _ => none⟩

/-- Witness for C9: a one-line paste with no start trigger fails to
parse and adds no entry. -/
theorem c9_parse_failure_iff_no_start_witness :
    parseLogBlock nullOracle [()] = none ∧
    addEntry nullOracle [] 0 0 [()] = [] := by
  have h := c9_parse_failure_iff_no_start Unit nullOracle [()] [] 0 0
  have hp : parseLogBlock nullOracle [()] = none := h.1.mpr (by decide)
  exact ⟨hp, h.2 hp⟩

/-- C10: a QualityGroup whose consolidated candidate set is empty is
silently dropped by the per-entry group loop — `processGroups` skips it
outright, creating no instance and updating none — and an instance can
have an empty (CONTRADICTED) feasible set after incorporation of a
non-empty consolidated set only by descending from an instance that
already existed before the call, its new feasible set being the
intersection of that instance's feasible set with the consolidated
candidate set (newly created instances always start non-empty). -/
theorem c10_empty_group_dropped :
    (∀ (k : GKey) (gs : List (GKey × Finset Coord)) (veins : List Vein) (n : ℕ),
      processGroups ((k, (∅ : Finset Coord)) :: gs) veins n =
        processGroups gs veins n) ∧
    (∀ (veins : List Vein) (n : ℕ) (ore ql color : String) (cand : Finset Coord),
      cand ≠ ∅ → ∀ v' ∈ (incorporateCandidates veins n ore ql color cand).1,
        v'.feasible = ∅ →
        ∃ v ∈ veins, v.id = v'.id ∧ v'.feasible = v.feasible ∩ cand) :=
  ⟨processGroups_empty_skip,
   fun _ _ _ _ _ _ hne _ hv' he => incorporate_contradiction_source hne hv' he⟩

/-- Witness for C10: incorporating a non-empty candidate set alongside
an already-contradicted instance leaves that instance traceable to
itself. -/
theorem c10_empty_group_dropped_witness :
    ({((0 : ℤ), (0 : ℤ))} : Finset Coord) ≠ ∅ ∧
    emptyVein ∈ (incorporateCandidates [emptyVein] 2 "iron" "40-59" "#3ddc84"
      {((0 : ℤ), (0 : ℤ))}).1 ∧
    ∃ v ∈ [emptyVein], v.id = emptyVein.id ∧
      emptyVein.feasible = v.feasible ∩ {((0 : ℤ), (0 : ℤ))} :=
  ⟨by decide, by decide,
   c10_empty_group_dropped.2 [emptyVein] 2 "iron" "40-59" "#3ddc84" _ (by decide)
     emptyVein (by decide) (by decide)⟩
